import Mathlib

/-!
Verification of the wukong scheduling/runtime core.

This file gives a shallow embedding in Lean 4 of the parts of the repository
that the checked properties talk about:

* `.wukong/scheduler/scheduler.py` — the lightweight in-memory scheduler
  (`Territory`, `ScheduledTask`, `WukongScheduler` with territory claiming,
  admission control and per-tier batching);
* `wukong-dist/runtime/scheduler.py` — the DAG task-graph scheduler
  (`get_ready_nodes`, `mark_node_status`, `topological_sort`);
* `wukong-dist/runtime/state_manager.py` — the persisted runtime state
  (`get_state`, `prepare_for_resume`);
* `wukong-dist/runtime/health_monitor.py` — heartbeat classification
  (`check_health`).

Python dicts are embedded as association lists (insertion ordered, unique
keys) or as Lean functions; timestamps and JSON parsing — which come from
the Python standard library, not from this repository — are passed in as
parameters.  Machine-level effects (file IO, event appends) are outside the
properties below and are dropped; every function is otherwise translated
clause by clause from the Python source.
-/

namespace LightSched

/-- Cost tiers of the six avatar types (`CostTier` in scheduler.py). -/
inductive CostTier where
  | cheap
  | medium
  | expensive
deriving DecidableEq, Repr

/-- The six avatar types (`AvatarType` in scheduler.py). -/
inductive AvatarType where
  | eye
  | ear
  | nose
  | tongue
  | body
  | mind
deriving DecidableEq, Repr

/-- Task states (`TaskStatus` in scheduler.py). -/
inductive TaskStatus where
  | pending
  | in_progress
  | completed
  | failed
  | blocked
deriving DecidableEq, Repr

/-- One row of the `AVATAR_CONFIG` table. -/
structure AvatarConfigEntry where
  cost : CostTier
  model : String
  max_concurrent : Nat
  background : String
deriving DecidableEq, Repr

/-- The `AVATAR_CONFIG` table of scheduler.py. -/
def AVATAR_CONFIG : AvatarType → AvatarConfigEntry
  | .eye    => ⟨.cheap, "haiku", 10, "必须"⟩
  | .ear    => ⟨.cheap, "haiku", 10, "可选"⟩
  | .nose   => ⟨.cheap, "haiku", 5, "必须"⟩
  | .tongue => ⟨.medium, "sonnet", 3, "可选"⟩
  | .body   => ⟨.expensive, "opus", 1, "禁止"⟩
  | .mind   => ⟨.expensive, "opus", 1, "禁止"⟩

/-- A file territory (`Territory` dataclass in scheduler.py). -/
structure Territory where
  file_path : String
  owner : String
  granularity : String
  function_name : Option String
  class_name : Option String
deriving DecidableEq, Repr

/-- `Territory.conflicts_with`, translated branch by branch. -/
def Territory.conflicts_with (self other : Territory) : Bool :=
  if self.file_path ≠ other.file_path then false
  else if self.granularity = "file" ∨ other.granularity = "file" then true
  else if self.granularity = "function" ∧ other.granularity = "function" then
    self.function_name = other.function_name
  else if self.granularity = "class" ∧ other.granularity = "class" then
    self.class_name = other.class_name
  else false

/-- The "subunit" a territory names, if any: a function-level territory names
its function, a class-level territory names its class, and any other
non-whole-file granularity names nothing. -/
def Territory.subunit (t : Territory) : Option (String × Option String) :=
  if t.granularity = "function" then some ("function", t.function_name)
  else if t.granularity = "class" then some ("class", t.class_name)
  else none

/-- The conflict relation as the specification words it: same resource key and
(either one is whole-file granularity or both name the same subunit). -/
def territoryConflictSpec (a b : Territory) : Prop :=
  a.file_path = b.file_path ∧
    (a.granularity = "file" ∨ b.granularity = "file" ∨
      ∃ s, a.subunit = some s ∧ b.subunit = some s)

end LightSched

namespace LightSched

/-- The spec-level conflict relation is symmetric in its two territories. -/
theorem territoryConflictSpec_symm {a b : Territory} :
    territoryConflictSpec a b → territoryConflictSpec b a := by
  rintro ⟨h1, h2⟩
  refine ⟨h1.symm, ?_⟩
  rcases h2 with h | h | ⟨s, hs1, hs2⟩
  · exact Or.inr (Or.inl h)
  · exact Or.inl h
  · exact Or.inr (Or.inr ⟨s, hs2, hs1⟩)

/-- `conflicts_with` agrees with the specification's conflict relation. -/
theorem conflicts_with_iff_spec (a b : Territory) :
    a.conflicts_with b = true ↔ territoryConflictSpec a b := by
  unfold Territory.conflicts_with territoryConflictSpec Territory.subunit
  by_cases hf : a.file_path = b.file_path
  · by_cases ha : a.granularity = "file"
    · simp [hf, ha]
    · by_cases hb : b.granularity = "file"
      · simp [hf, ha, hb]
      · by_cases hfa : a.granularity = "function" <;>
          by_cases hfb : b.granularity = "function"
        · simp only [hf, ha, hb, hfa, hfb]
          simp [eq_comm]
        · by_cases hc : b.granularity = "class" <;>
            simp [hf, ha, hb, hfa, hfb, hc]
        · by_cases hc : a.granularity = "class" <;>
            simp [hf, ha, hb, hfa, hfb, hc]
        · by_cases hca : a.granularity = "class" <;>
            by_cases hcb : b.granularity = "class" <;>
              simp [hf, ha, hb, hfa, hfb, hca, hcb, eq_comm]
  · simp [hf]

end LightSched

/-- **C8.** `Territory.conflicts_with a b` is true iff `a` and `b` share the
same `file_path` and either one has whole-file granularity or both name the
same subunit; moreover the predicate is symmetric:
`a.conflicts_with b = b.conflicts_with a`. -/
theorem conflicts_with_correct (a b : LightSched.Territory) :
    (a.conflicts_with b = true ↔ LightSched.territoryConflictSpec a b) ∧
      a.conflicts_with b = b.conflicts_with a := by
  refine ⟨LightSched.conflicts_with_iff_spec a b, ?_⟩
  cases hab : a.conflicts_with b <;> cases hba : b.conflicts_with a
  · rfl
  · exact absurd ((LightSched.conflicts_with_iff_spec a b).mpr
      (LightSched.territoryConflictSpec_symm
        ((LightSched.conflicts_with_iff_spec b a).mp hba))) (by simp [hab])
  · exact absurd ((LightSched.conflicts_with_iff_spec b a).mpr
      (LightSched.territoryConflictSpec_symm
        ((LightSched.conflicts_with_iff_spec a b).mp hab))) (by simp [hba])
  · rfl

namespace LightSched

/-- Python `a or b` on an optional string field: `None` and `""` are falsy. -/
def pyOrStr (a : Option String) (b : String) : String :=
  match a with
  | some s => if s = "" then b else s
  | none => b

/-- The dict key under which `claim_territory` records a territory:
`f"{file_path}:{granularity}:{function_name or class_name or 'full'}"`. -/
def territoryKey (t : Territory) : String :=
  t.file_path ++ ":" ++ t.granularity ++ ":" ++
    pyOrStr t.function_name (pyOrStr t.class_name "full")

/-- Assignment `d[k] = v` on an insertion-ordered dict embedded as an
association list: replaces the value at an existing key in place, otherwise
appends the new pair at the end. -/
def alSet {α : Type} (k : String) (v : α) : List (String × α) → List (String × α)
  | [] => [(k, v)]
  | p :: rest => if p.1 = k then (p.1, v) :: rest else p :: alSet k v rest

/-- A scheduled task (`ScheduledTask` dataclass in scheduler.py). -/
structure ScheduledTask where
  task_id : String
  avatar : AvatarType
  description : String
  prompt : String
  status : TaskStatus
  territories : List Territory
  depends_on : List String
  created_at : String
  started_at : Option String
  completed_at : Option String
  result : Option String
  background : Bool
deriving DecidableEq, Repr

/-- The scheduler state (`WukongScheduler.__init__`): insertion-ordered task
dict, territory dict, and the three per-tier active-id lists. -/
structure WukongScheduler where
  tasks : List (String × ScheduledTask)
  territories : List (String × Territory)
  active_cheap : List String
  active_medium : List String
  active_expensive : List String
  task_counter : Nat
deriving DecidableEq, Repr

/-- `self.active_by_tier[tier]`. -/
def WukongScheduler.active_by_tier (s : WukongScheduler) : CostTier → List String
  | .cheap => s.active_cheap
  | .medium => s.active_medium
  | .expensive => s.active_expensive

/-- Replace one tier's active-id list. -/
def WukongScheduler.setActive (s : WukongScheduler) :
    CostTier → List String → WukongScheduler
  | .cheap, l => { s with active_cheap := l }
  | .medium, l => { s with active_medium := l }
  | .expensive, l => { s with active_expensive := l }

/-- The recording loop of `claim_territory`: store each territory in the
territory dict under its key, in order. -/
def recordAll (ts : List Territory) (m : List (String × Territory)) :
    List (String × Territory) :=
  ts.foldl (fun m t => alSet (territoryKey t) t m) m

/-- The conflict scan of `claim_territory`: for each new territory, in order,
one message per existing territory of a different owner that it conflicts
with. -/
def conflictMessages (s : WukongScheduler) (task_id : String)
    (territories : List Territory) : List String :=
  (territories.map (fun nt =>
    s.territories.filterMap (fun p =>
      if p.2.owner ≠ task_id ∧ nt.conflicts_with p.2 then
        some (p.1 ++ " (owned by " ++ p.2.owner ++ ")")
      else none))).flatten

/-- `WukongScheduler.claim_territory`: collect conflict messages against all
existing territories of other owners; if there are none, record every new
territory under its key. -/
def WukongScheduler.claim_territory (s : WukongScheduler) (task_id : String)
    (territories : List Territory) : List String × WukongScheduler :=
  let conflicts := conflictMessages s task_id territories
  if conflicts.isEmpty then
    (conflicts, { s with territories := recordAll territories s.territories })
  else (conflicts, s)

/-- `WukongScheduler.release_territory`: drop every territory whose owner is
`task_id`. -/
def WukongScheduler.release_territory (s : WukongScheduler) (task_id : String) :
    WukongScheduler :=
  { s with territories := s.territories.filter (fun p => p.2.owner ≠ task_id) }

/-- The dependency scan at the top of `can_start`: the first dependency id
whose task exists and is not completed, if any. -/
def findBlockingDep (tasks : List (String × ScheduledTask)) :
    List String → Option String
  | [] => none
  | d :: rest =>
    match List.lookup d tasks with
    | some dt =>
      if dt.status ≠ TaskStatus.completed then some d
      else findBlockingDep tasks rest
    | none => findBlockingDep tasks rest

/-- String form of a tier (its `.value`). -/
def tierValue : CostTier → String
  | .cheap => "cheap"
  | .medium => "medium"
  | .expensive => "expensive"

/-- `WukongScheduler.can_start`: dependency check, per-avatar concurrency
check, then territory claim (which records the territories on success). -/
def WukongScheduler.can_start (s : WukongScheduler) (task : ScheduledTask) :
    (Bool × String) × WukongScheduler :=
  let config := AVATAR_CONFIG task.avatar
  let tier := config.cost
  match findBlockingDep s.tasks task.depends_on with
  | some d => ((false, "Blocked by dependency: " ++ d), s)
  | none =>
    let active_count := (s.active_by_tier tier).length
    if active_count ≥ config.max_concurrent then
      ((false, "Max concurrent " ++ tierValue tier ++ " tasks reached (" ++
        toString active_count ++ "/" ++ toString config.max_concurrent ++ ")"), s)
    else
      let cs := s.claim_territory task.task_id task.territories
      if cs.1.isEmpty then ((true, "Ready"), cs.2)
      else ((false, "Territory conflicts: " ++ String.intercalate ", " cs.1), cs.2)

/-- `WukongScheduler.start_task`. -/
def WukongScheduler.start_task (s : WukongScheduler) (task_id : String)
    (now : String) : Bool × WukongScheduler :=
  match List.lookup task_id s.tasks with
  | none => (false, s)
  | some task =>
    let r := s.can_start task
    if r.1.1 = false then
      (false, { r.2 with
        tasks := alSet task_id { task with status := .blocked } r.2.tasks })
    else
      let task2 := { task with status := .in_progress, started_at := some now }
      let s2 := { r.2 with tasks := alSet task_id task2 r.2.tasks }
      let tier := (AVATAR_CONFIG task.avatar).cost
      (true, s2.setActive tier (s2.active_by_tier tier ++ [task_id]))

/-- `WukongScheduler.complete_task`. -/
def WukongScheduler.complete_task (s : WukongScheduler) (task_id : String)
    (result : Option String) (success : Bool) (now : String) : WukongScheduler :=
  match List.lookup task_id s.tasks with
  | none => s
  | some task =>
    let task2 := { task with
      status := if success then .completed else .failed,
      completed_at := some now, result := result }
    let s2 := { s with tasks := alSet task_id task2 s.tasks }
    let tier := (AVATAR_CONFIG task.avatar).cost
    let s3 := s2.setActive tier ((s2.active_by_tier tier).erase task_id)
    s3.release_territory task_id

/-- The loop body of `get_ready_tasks`: walk the task dict in insertion
order, calling `can_start` (which may record territories) on every pending
task and collecting those that may start. -/
def getReadyTasksAux : List (String × ScheduledTask) → WukongScheduler →
    List ScheduledTask × WukongScheduler
  | [], s => ([], s)
  | (_, t) :: rest, s =>
    if t.status = TaskStatus.pending then
      let r := s.can_start t
      let rec2 := getReadyTasksAux rest r.2
      if r.1.1 then (t :: rec2.1, rec2.2) else rec2
    else getReadyTasksAux rest s

/-- `WukongScheduler.get_ready_tasks`. -/
def WukongScheduler.get_ready_tasks (s : WukongScheduler) :
    List ScheduledTask × WukongScheduler :=
  getReadyTasksAux s.tasks s

/-- Python slicing `l[:n]` where `n` may be negative (negative `n` keeps all
but the last `-n` elements). -/
def pyTake {α : Type} (n : Int) (l : List α) : List α :=
  if 0 ≤ n then l.take n.toNat else l.take (l.length - (-n).toNat)

/-- `WukongScheduler.schedule_next_batch`: group the ready tasks by tier and
admit up to `ceiling - active_count` per tier, in order, with the hardcoded
ceilings cheap=10, medium=3, expensive=1. -/
def WukongScheduler.schedule_next_batch (s : WukongScheduler) :
    List ScheduledTask × WukongScheduler :=
  let r := s.get_ready_tasks
  if r.1.isEmpty then ([], r.2)
  else
    let cheap := r.1.filter (fun t => (AVATAR_CONFIG t.avatar).cost = CostTier.cheap)
    let medium := r.1.filter (fun t => (AVATAR_CONFIG t.avatar).cost = CostTier.medium)
    let expensive := r.1.filter (fun t => (AVATAR_CONFIG t.avatar).cost = CostTier.expensive)
    let batch :=
      pyTake ((10 : Int) - (r.2.active_by_tier .cheap).length) cheap ++
        pyTake ((3 : Int) - (r.2.active_by_tier .medium).length) medium ++
          pyTake ((1 : Int) - (r.2.active_by_tier .expensive).length) expensive
    (batch, r.2)

end LightSched

namespace LightSched

/-- Looking up the key just set by `alSet` returns the new value. -/
theorem lookup_alSet_self {α : Type} (k : String) (v : α)
    (m : List (String × α)) : List.lookup k (alSet k v m) = some v := by
  induction m with
  | nil => simp [alSet, List.lookup]
  | cons p rest ih =>
    by_cases h : p.1 = k
    · simp [alSet, h, List.lookup]
    · have h2 : (k == p.1) = false := by
        simp only [beq_eq_false_iff_ne, ne_eq]
        exact fun hh => h hh.symm
      simp [alSet, h, List.lookup, h2, ih]

/-- `alSet` at one key does not change lookups of other keys. -/
theorem lookup_alSet_ne {α : Type} (k k2 : String) (v : α)
    (m : List (String × α)) (h : k ≠ k2) :
    List.lookup k (alSet k2 v m) = List.lookup k m := by
  have hk : (k == k2) = false := by
    simp only [beq_eq_false_iff_ne, ne_eq]; exact h
  induction m with
  | nil => simp [alSet, List.lookup, hk]
  | cons p rest ih =>
    by_cases hp : p.1 = k2
    · have h2 : (k == p.1) = false := by
        simp only [beq_eq_false_iff_ne, ne_eq]
        exact fun hh => h (hh.trans hp)
      simp [alSet, hp, List.lookup, h2, hk]
    · by_cases hkp : k = p.1
      · simp [alSet, hp, List.lookup, hkp]
      · have h2 : (k == p.1) = false := by
          simp only [beq_eq_false_iff_ne, ne_eq]; exact hkp
        simp [alSet, hp, List.lookup, h2, ih]

/-- Recording territories none of whose keys is `k` leaves the lookup of `k`
unchanged. -/
theorem lookup_recordAll_nomatch (ts : List Territory)
    (m : List (String × Territory)) (k : String)
    (h : ∀ t ∈ ts, territoryKey t ≠ k) :
    List.lookup k (recordAll ts m) = List.lookup k m := by
  induction ts generalizing m with
  | nil => rfl
  | cons t rest ih =>
    have step : recordAll (t :: rest) m = recordAll rest (alSet (territoryKey t) t m) := rfl
    rw [step, ih _ (fun t2 h2 => h t2 (List.mem_cons_of_mem t h2)),
      lookup_alSet_ne _ _ _ _ (fun hk => h t (List.mem_cons_self t rest) hk.symm)]

/-- After `recordAll`, every key that occurs among the recorded territories
maps to the territory of one of them. -/
theorem lookup_recordAll_mem (ts : List Territory)
    (m : List (String × Territory)) (k : String)
    (h : ∃ t ∈ ts, territoryKey t = k) :
    ∃ t2 ∈ ts, territoryKey t2 = k ∧
      List.lookup k (recordAll ts m) = some t2 := by
  induction ts generalizing m with
  | nil => rcases h with ⟨t, ht, _⟩; cases ht
  | cons t rest ih =>
    have step : recordAll (t :: rest) m = recordAll rest (alSet (territoryKey t) t m) := rfl
    by_cases hr : ∃ t2 ∈ rest, territoryKey t2 = k
    · obtain ⟨t2, ht2, hk2, hl⟩ := ih (alSet (territoryKey t) t m) hr
      exact ⟨t2, List.mem_cons_of_mem t ht2, hk2, by rw [step]; exact hl⟩
    · have hkt : territoryKey t = k := by
        rcases h with ⟨t0, ht0, hk0⟩
        rcases List.mem_cons.mp ht0 with rfl | hmem
        · exact hk0
        · exact absurd ⟨t0, hmem, hk0⟩ hr
      have hnm : ∀ t2 ∈ rest, territoryKey t2 ≠ k :=
        fun t2 h2 hk2 => hr ⟨t2, h2, hk2⟩
      refine ⟨t, List.mem_cons_self t rest, hkt, ?_⟩
      rw [step, lookup_recordAll_nomatch rest _ k hnm, ← hkt, lookup_alSet_self]

/-- The whole-file territory on `fileA` owned by `owner1`. -/
def terrA1 : Territory := ⟨"fileA", "owner1", "file", none, none⟩

/-- The identical whole-file territory on `fileA`, owned by `owner2`. -/
def terrA2 : Territory := ⟨"fileA", "owner2", "file", none, none⟩

/-- A fresh scheduler state. -/
def sEmpty : WukongScheduler := ⟨[], [], [], [], [], 0⟩

end LightSched

/-- **C7.** For a claim whose territories all carry the claiming owner in
their `owner` field: a non-empty conflict list means the territory map is
untouched; an empty conflict list means every claimed territory is recorded
under its key; `release_territory` removes exactly the owner's territories
and is idempotent; and in the two-owner whole-file scenario, owner 2's claim
conflicts and records nothing until owner 1 releases, after which the
identical claim succeeds and is recorded. -/
theorem claim_release_correct (s : LightSched.WukongScheduler) (owner : String)
    (ts : List LightSched.Territory) (hown : ∀ t ∈ ts, t.owner = owner) :
    (((s.claim_territory owner ts).1 ≠ [] → (s.claim_territory owner ts).2 = s) ∧
      ((s.claim_territory owner ts).1 = [] →
        ∀ t ∈ ts, ∃ t2 ∈ ts, LightSched.territoryKey t2 = LightSched.territoryKey t ∧
          List.lookup (LightSched.territoryKey t)
            (s.claim_territory owner ts).2.territories = some t2)) ∧
    ((s.release_territory owner).territories =
        s.territories.filter (fun p => p.2.owner ≠ owner) ∧
      (s.release_territory owner).release_territory owner = s.release_territory owner) ∧
    ((LightSched.sEmpty.claim_territory "owner1" [LightSched.terrA1]).2.claim_territory
        "owner2" [LightSched.terrA2]).1 ≠ [] ∧
    (((LightSched.sEmpty.claim_territory "owner1" [LightSched.terrA1]).2.claim_territory
        "owner2" [LightSched.terrA2]).2 =
      (LightSched.sEmpty.claim_territory "owner1" [LightSched.terrA1]).2) ∧
    ((((LightSched.sEmpty.claim_territory "owner1" [LightSched.terrA1]).2.release_territory
        "owner1").claim_territory "owner2" [LightSched.terrA2]).1 = []) ∧
    List.lookup (LightSched.territoryKey LightSched.terrA2)
      ((((LightSched.sEmpty.claim_territory "owner1"
        [LightSched.terrA1]).2.release_territory "owner1").claim_territory
          "owner2" [LightSched.terrA2]).2.territories) = some LightSched.terrA2 := by
  refine ⟨⟨?_, ?_⟩, ⟨rfl, ?_⟩, by decide, by decide, by decide, by decide⟩
  · intro hne
    unfold LightSched.WukongScheduler.claim_territory
    unfold LightSched.WukongScheduler.claim_territory at hne
    simp only at hne ⊢
    by_cases he : (LightSched.conflictMessages s owner ts).isEmpty
    · rw [List.isEmpty_iff] at he
      rw [if_pos (List.isEmpty_iff.mpr he)] at hne
      exact absurd he hne
    · rw [if_neg (by simp [he])]
  · intro heq t ht
    unfold LightSched.WukongScheduler.claim_territory at heq ⊢
    simp only at heq ⊢
    by_cases he : (LightSched.conflictMessages s owner ts).isEmpty
    · simp only [he, if_true]
      exact LightSched.lookup_recordAll_mem ts s.territories
        (LightSched.territoryKey t) ⟨t, ht, rfl⟩
    · rw [if_neg (by simp [he])] at heq
      rw [List.isEmpty_iff] at he
      exact absurd heq he
  · unfold LightSched.WukongScheduler.release_territory
    simp only
    congr 1
    rw [List.filter_filter]
    apply List.filter_congr
    intro p _
    by_cases hp : p.2.owner = owner <;> simp [hp]

/-- Witness for C7: the two-owner scenario instantiates the theorem, all
hypotheses discharged by computation. -/
theorem claim_release_correct_witness :
    ((LightSched.sEmpty.claim_territory "owner1" [LightSched.terrA1]).2.claim_territory
        "owner2" [LightSched.terrA2]).1 ≠ [] :=
  (claim_release_correct LightSched.sEmpty "owner1" [LightSched.terrA1]
    (by decide)).2.2.1

namespace LightSched

/-- A whole-file territory used to exhibit the `can_start` side effect. -/
def frameTerr : Territory := ⟨"fileB", "t1", "file", none, none⟩

/-- A pending task declaring `frameTerr`. -/
def frameTask : ScheduledTask :=
  ⟨"t1", .eye, "", "", .pending, [frameTerr], [], "", none, none, none, false⟩

/-- A scheduler holding only `frameTask`, with an empty territory map. -/
def frameState : WukongScheduler := ⟨[("t1", frameTask)], [], [], [], [], 1⟩

end LightSched


namespace LightSched

/-- The first component of `claim_territory` is always the conflict list. -/
theorem claim_territory_fst (s : WukongScheduler) (tid : String)
    (ts : List Territory) :
    (s.claim_territory tid ts).1 = conflictMessages s tid ts := by
  unfold WukongScheduler.claim_territory
  dsimp only
  split <;> rfl

/-- With no conflicts, `claim_territory` records all territories. -/
theorem claim_territory_snd_empty (s : WukongScheduler) (tid : String)
    (ts : List Territory) (he : conflictMessages s tid ts = []) :
    (s.claim_territory tid ts).2 =
      { s with territories := recordAll ts s.territories } := by
  unfold WukongScheduler.claim_territory
  dsimp only
  rw [if_pos (by rw [he]; rfl)]

/-- With conflicts, `claim_territory` leaves the state untouched. -/
theorem claim_territory_snd_nonempty (s : WukongScheduler) (tid : String)
    (ts : List Territory) (he : conflictMessages s tid ts ≠ []) :
    (s.claim_territory tid ts).2 = s := by
  unfold WukongScheduler.claim_territory
  dsimp only
  rw [if_neg (by simp [List.isEmpty_iff, he])]

/-- When `can_start` answers true, the state it returns is the input state
with the task's territories recorded. -/
theorem can_start_true_state (s : WukongScheduler) (task : ScheduledTask) :
    (s.can_start task).1.1 = true →
      (s.can_start task).2 =
        { s with territories := recordAll task.territories s.territories } := by
  unfold WukongScheduler.can_start
  dsimp only
  cases hdep : findBlockingDep s.tasks task.depends_on
  · dsimp only
    split
    · exact fun h => nomatch h
    · split
      · next hcm =>
        intro _
        rw [claim_territory_fst] at hcm
        exact claim_territory_snd_empty s task.task_id task.territories
          (List.isEmpty_iff.mp hcm)
      · exact fun h => nomatch h
  · exact fun h => nomatch h

end LightSched

/-- **C10.** Whenever `can_start` answers true, the call itself has already
recorded the task's declared territories in the scheduler's territory map
(each one retrievable under its key); consequently `get_ready_tasks`, which
calls `can_start` on every pending task, mutates the territory map even
though it is presented as a query — witnessed by a concrete state whose
territory map differs after the call. -/
theorem can_start_frame_effect :
    (∀ (s : LightSched.WukongScheduler) (task : LightSched.ScheduledTask),
        (s.can_start task).1.1 = true →
          ∀ t ∈ task.territories, ∃ t2 ∈ task.territories,
            LightSched.territoryKey t2 = LightSched.territoryKey t ∧
              List.lookup (LightSched.territoryKey t)
                (s.can_start task).2.territories = some t2) ∧
      (LightSched.frameState.get_ready_tasks).2.territories ≠
        LightSched.frameState.territories := by
  refine ⟨?_, by decide⟩
  intro s task hcan t ht
  rw [LightSched.can_start_true_state s task hcan]
  exact LightSched.lookup_recordAll_mem task.territories s.territories
    (LightSched.territoryKey t) ⟨t, ht, rfl⟩

/-- Witness for C10: in the concrete one-task state, `can_start` returns true
and has recorded the declared territory under its key. -/
theorem can_start_frame_effect_witness :
    ∃ t2 ∈ LightSched.frameTask.territories,
      LightSched.territoryKey t2 = LightSched.territoryKey LightSched.frameTerr ∧
        List.lookup (LightSched.territoryKey LightSched.frameTerr)
          (LightSched.frameState.can_start LightSched.frameTask).2.territories = some t2 :=
  can_start_frame_effect.1 LightSched.frameState LightSched.frameTask (by decide)
    LightSched.frameTerr (by decide)

namespace LightSched

/-- If every dependency id either has no task entry or a completed one, the
dependency scan finds nothing blocking. -/
theorem findBlockingDep_none (tasks : List (String × ScheduledTask))
    (deps : List String)
    (h : ∀ d ∈ deps, ∀ dt, List.lookup d tasks = some dt →
      dt.status = TaskStatus.completed) :
    findBlockingDep tasks deps = none := by
  induction deps with
  | nil => rfl
  | cons d rest ih =>
    unfold findBlockingDep
    cases hl : List.lookup d tasks with
    | none => exact ih (fun d2 h2 => h d2 (List.mem_cons_of_mem d h2))
    | some dt =>
      dsimp only
      rw [if_neg (fun hne => hne (h d (List.mem_cons_self d rest) dt hl))]
      exact ih (fun d2 h2 => h d2 (List.mem_cons_of_mem d h2))

/-- Membership in `alSet k v m`: either an original pair or the new value. -/
theorem mem_alSet_values {α : Type} (k : String) (v : α)
    (m : List (String × α)) (p : String × α) (hp : p ∈ alSet k v m) :
    p ∈ m ∨ p.2 = v := by
  induction m with
  | nil =>
    rcases List.mem_singleton.mp hp with rfl
    exact Or.inr rfl
  | cons q rest ih =>
    unfold alSet at hp
    by_cases hq : q.1 = k
    · rw [if_pos hq] at hp
      rcases List.mem_cons.mp hp with rfl | hmem
      · exact Or.inr rfl
      · exact Or.inl (List.mem_cons_of_mem q hmem)
    · rw [if_neg hq] at hp
      rcases List.mem_cons.mp hp with rfl | hmem
      · exact Or.inl (List.mem_cons_self p rest)
      · rcases ih hmem with h1 | h1
        · exact Or.inl (List.mem_cons_of_mem q h1)
        · exact Or.inr h1

/-- Membership after `recordAll`: an original pair or one of the recorded
territories. -/
theorem mem_recordAll (ts : List Territory) (m : List (String × Territory))
    (p : String × Territory) (hp : p ∈ recordAll ts m) :
    p ∈ m ∨ p.2 ∈ ts := by
  induction ts generalizing m with
  | nil => exact Or.inl hp
  | cons t rest ih =>
    have step : recordAll (t :: rest) m = recordAll rest (alSet (territoryKey t) t m) := rfl
    rw [step] at hp
    rcases ih (alSet (territoryKey t) t m) hp with h1 | h1
    · rcases mem_alSet_values (territoryKey t) t m p h1 with h2 | h2
      · exact Or.inl h2
      · exact Or.inr (h2 ▸ List.mem_cons_self t rest)
    · exact Or.inr (List.mem_cons_of_mem t h1)

/-- The territory map after `claim_territory` only holds original pairs or
the territories that were being claimed. -/
theorem claim_territory_territories (s : WukongScheduler) (tid : String)
    (ts : List Territory) :
    ∀ p ∈ (s.claim_territory tid ts).2.territories,
      p ∈ s.territories ∨ p.2 ∈ ts := by
  by_cases he : conflictMessages s tid ts = []
  · rw [claim_territory_snd_empty s tid ts he]
    exact fun p hp => mem_recordAll ts s.territories p hp
  · rw [claim_territory_snd_nonempty s tid ts he]
    exact fun p hp => Or.inl hp

/-- `claim_territory` changes nothing but the territory map. -/
theorem claim_territory_snd_fields (s : WukongScheduler) (tid : String)
    (ts : List Territory) :
    (s.claim_territory tid ts).2.tasks = s.tasks ∧
      (s.claim_territory tid ts).2.active_cheap = s.active_cheap ∧
        (s.claim_territory tid ts).2.active_medium = s.active_medium ∧
          (s.claim_territory tid ts).2.active_expensive = s.active_expensive := by
  unfold WukongScheduler.claim_territory
  dsimp only
  split <;> exact ⟨rfl, rfl, rfl, rfl⟩

/-- `can_start` changes nothing but the territory map. -/
theorem can_start_snd_fields (st : WukongScheduler) (t : ScheduledTask) :
    (st.can_start t).2.tasks = st.tasks ∧
      (st.can_start t).2.active_cheap = st.active_cheap ∧
        (st.can_start t).2.active_medium = st.active_medium ∧
          (st.can_start t).2.active_expensive = st.active_expensive := by
  unfold WukongScheduler.can_start
  dsimp only
  cases hdep : findBlockingDep st.tasks t.depends_on
  · dsimp only
    split
    · exact ⟨rfl, rfl, rfl, rfl⟩
    · have hf := claim_territory_snd_fields st t.task_id t.territories
      split
      · exact hf
      · exact hf
  · exact ⟨rfl, rfl, rfl, rfl⟩

/-- The territory map after `can_start` only holds original pairs or the
task's own territories. -/
theorem can_start_territories (st : WukongScheduler) (t : ScheduledTask) :
    ∀ p ∈ (st.can_start t).2.territories,
      p ∈ st.territories ∨ p.2 ∈ t.territories := by
  unfold WukongScheduler.can_start
  dsimp only
  cases hdep : findBlockingDep st.tasks t.depends_on
  · dsimp only
    split
    · exact fun p hp => Or.inl hp
    · have hc := claim_territory_territories st t.task_id t.territories
      split
      · exact hc
      · exact hc
  · exact fun p hp => Or.inl hp

/-- If every claimed territory is, against every existing entry, either owned
by the claimer or conflict-free, the conflict scan is empty. -/
theorem conflictMessages_eq_nil (st : WukongScheduler) (tid : String)
    (ts : List Territory)
    (h : ∀ nt ∈ ts, ∀ p ∈ st.territories,
      p.2.owner = tid ∨ nt.conflicts_with p.2 = false) :
    conflictMessages st tid ts = [] := by
  unfold conflictMessages
  rw [List.flatten_eq_nil_iff]
  intro l hl
  rw [List.mem_map] at hl
  obtain ⟨nt, hnt, rfl⟩ := hl
  rw [List.filterMap_eq_nil_iff]
  intro p hp
  rcases h nt hnt p hp with h1 | h1
  · rw [if_neg]
    rintro ⟨ho, _⟩
    exact ho h1
  · rw [if_neg]
    rintro ⟨_, hc⟩
    rw [h1] at hc
    exact nomatch hc

/-- When nothing blocks a task — dependencies clear, tier below its avatar's
ceiling, no conflicting territory — `can_start` succeeds and records the
task's territories. -/
theorem can_start_succeeds (st : WukongScheduler) (t : ScheduledTask)
    (hdep : findBlockingDep st.tasks t.depends_on = none)
    (hact : (st.active_by_tier (AVATAR_CONFIG t.avatar).cost).length <
      (AVATAR_CONFIG t.avatar).max_concurrent)
    (hconf : conflictMessages st t.task_id t.territories = []) :
    st.can_start t = ((true, "Ready"),
      { st with territories := recordAll t.territories st.territories }) := by
  unfold WukongScheduler.can_start
  rw [hdep]
  dsimp only
  rw [if_neg (not_le.mpr hact)]
  have hie : (st.claim_territory t.task_id t.territories).1.isEmpty = true := by
    rw [claim_territory_fst, hconf]
    rfl
  rw [if_pos hie, claim_territory_snd_empty st t.task_id t.territories hconf]

end LightSched

namespace LightSched

/-- The pending tasks of the scheduler, in task-dict insertion order. -/
def pendingTasks (s : WukongScheduler) : List ScheduledTask :=
  (s.tasks.map Prod.snd).filter (fun t => decide (t.status = TaskStatus.pending))

/-- A territory value the sweep may encounter in the territory map: either an
original entry or a territory declared by some pending task. -/
def allowedVal (s : WukongScheduler) (v : Territory) : Prop :=
  (∃ q ∈ s.territories, q.2 = v) ∨ ∃ t ∈ pendingTasks s, v ∈ t.territories

/-- Equal active lists fieldwise give equal `active_by_tier`. -/
theorem active_by_tier_eq (st s : WukongScheduler)
    (hc : st.active_cheap = s.active_cheap)
    (hm : st.active_medium = s.active_medium)
    (hx : st.active_expensive = s.active_expensive) (tier : CostTier) :
    st.active_by_tier tier = s.active_by_tier tier := by
  cases tier <;> simp [WukongScheduler.active_by_tier, hc, hm, hx]

/-- The `get_ready_tasks` sweep, when no pending task is blocked by a
dependency, its tier ceiling, or a territory conflict (against the original
map and against the other pending tasks' declarations): it returns exactly
the pending tasks in insertion order and leaves the active lists unchanged. -/
theorem getReadyTasksAux_all (s : WukongScheduler)
    (hdeps : ∀ t ∈ pendingTasks s, ∀ d ∈ t.depends_on, ∀ dt,
      List.lookup d s.tasks = some dt → dt.status = TaskStatus.completed)
    (hact : ∀ t ∈ pendingTasks s,
      (s.active_by_tier (AVATAR_CONFIG t.avatar).cost).length <
        (AVATAR_CONFIG t.avatar).max_concurrent)
    (horig : ∀ t ∈ pendingTasks s, ∀ nt ∈ t.territories, ∀ p ∈ s.territories,
      p.2.owner = t.task_id ∨ nt.conflicts_with p.2 = false)
    (hown2 : ∀ t ∈ pendingTasks s, ∀ nt ∈ t.territories, nt.owner = t.task_id)
    (hpair : ∀ t ∈ pendingTasks s, ∀ t2 ∈ pendingTasks s, t ≠ t2 →
      ∀ nt ∈ t.territories, ∀ v ∈ t2.territories, nt.conflicts_with v = false)
    (entries : List (String × ScheduledTask)) (st : WukongScheduler)
    (hsub : ∀ p ∈ entries, p ∈ s.tasks)
    (htasks : st.tasks = s.tasks)
    (hc : st.active_cheap = s.active_cheap)
    (hm : st.active_medium = s.active_medium)
    (hx : st.active_expensive = s.active_expensive)
    (hinv : ∀ p ∈ st.territories, allowedVal s p.2) :
    (getReadyTasksAux entries st).1 =
      (entries.map Prod.snd).filter (fun t => decide (t.status = TaskStatus.pending)) ∧
      (getReadyTasksAux entries st).2.active_cheap = s.active_cheap ∧
        (getReadyTasksAux entries st).2.active_medium = s.active_medium ∧
          (getReadyTasksAux entries st).2.active_expensive = s.active_expensive := by
  induction entries generalizing st with
  | nil => exact ⟨rfl, hc, hm, hx⟩
  | cons e rest ih =>
    obtain ⟨k, t⟩ := e
    have hmem_t : (k, t) ∈ s.tasks := hsub _ (List.mem_cons_self _ _)
    have step : getReadyTasksAux ((k, t) :: rest) st =
        (if t.status = TaskStatus.pending then
          let r := st.can_start t
          let rec2 := getReadyTasksAux rest r.2
          if r.1.1 then (t :: rec2.1, rec2.2) else rec2
        else getReadyTasksAux rest st) := rfl
    by_cases hp : t.status = TaskStatus.pending
    · have htR : t ∈ pendingTasks s := by
        unfold pendingTasks
        rw [List.mem_filter]
        exact ⟨List.mem_map_of_mem Prod.snd hmem_t, by simp [hp]⟩
      have hdep2 : findBlockingDep st.tasks t.depends_on = none := by
        rw [htasks]
        exact findBlockingDep_none s.tasks t.depends_on (hdeps t htR)
      have hact2 : (st.active_by_tier (AVATAR_CONFIG t.avatar).cost).length <
          (AVATAR_CONFIG t.avatar).max_concurrent := by
        rw [active_by_tier_eq st s hc hm hx]
        exact hact t htR
      have hconf2 : conflictMessages st t.task_id t.territories = [] := by
        apply conflictMessages_eq_nil
        intro nt hnt p hp2
        rcases hinv p hp2 with ⟨q, hq, hqv⟩ | ⟨t2, ht2, hv⟩
        · rw [← hqv]
          exact horig t htR nt hnt q hq
        · by_cases hte : t = t2
          · exact Or.inl ((hown2 t2 ht2 p.2 (hte ▸ hv)).trans (by rw [hte]))
          · exact Or.inr (hpair t htR t2 ht2 hte nt hnt p.2 hv)
      have hcs := can_start_succeeds st t hdep2 hact2 hconf2
      rw [step, if_pos hp]
      simp only [hcs]
      have ihr := ih { st with territories := recordAll t.territories st.territories }
        (fun p hp2 => hsub p (List.mem_cons_of_mem _ hp2)) htasks hc hm hx
        (by
          intro p hp2
          rcases mem_recordAll t.territories st.territories p hp2 with h1 | h1
          · exact hinv p h1
          · exact Or.inr ⟨t, htR, h1⟩)
      refine ⟨?_, ihr.2.1, ihr.2.2.1, ihr.2.2.2⟩
      simp only [List.map_cons, List.filter_cons, hp]
      rw [ihr.1]
      simp
    · rw [step, if_neg hp]
      have ihr := ih st (fun p hp2 => hsub p (List.mem_cons_of_mem _ hp2))
        htasks hc hm hx hinv
      refine ⟨?_, ihr.2.1, ihr.2.2.1, ihr.2.2.2⟩
      simp only [List.map_cons, List.filter_cons]
      rw [ihr.1]
      simp [hp]

end LightSched

namespace LightSched

/-- `pyTake` with a provably nonnegative count is `List.take`. -/
theorem pyTake_eq_take {α : Type} (n : Int) (l : List α) (h : 0 ≤ n) :
    pyTake n l = l.take n.toNat := by
  unfold pyTake
  rw [if_pos h]

/-- First of two pending expensive (mind-avatar) tasks. -/
def exTask1 : ScheduledTask :=
  ⟨"m1", .mind, "", "", .pending, [], [], "", none, none, none, false⟩

/-- Second of two pending expensive (mind-avatar) tasks. -/
def exTask2 : ScheduledTask :=
  ⟨"m2", .mind, "", "", .pending, [], [], "", none, none, none, false⟩

/-- A scheduler holding the two pending expensive tasks and nothing active. -/
def exState : WukongScheduler :=
  ⟨[("m1", exTask1), ("m2", exTask2)], [], [], [], [], 2⟩

end LightSched

/-- **C6.** When no ready task is blocked by a dependency or a territory
conflict and the per-tier active counts are within the ceilings,
`schedule_next_batch` admits, within each cost tier, exactly the first
`ceiling - active_count` ready tasks of that tier in their original order
(ceilings cheap=10, medium=3, expensive=1); in particular, with two pending
expensive tasks it admits exactly the first, and after that task is started
and completed the second is admitted. -/
theorem schedule_next_batch_correct (s : LightSched.WukongScheduler)
    (hdeps : ∀ t ∈ LightSched.pendingTasks s, ∀ d ∈ t.depends_on, ∀ dt,
      List.lookup d s.tasks = some dt → dt.status = LightSched.TaskStatus.completed)
    (hact : ∀ t ∈ LightSched.pendingTasks s,
      (s.active_by_tier (LightSched.AVATAR_CONFIG t.avatar).cost).length <
        (LightSched.AVATAR_CONFIG t.avatar).max_concurrent)
    (horig : ∀ t ∈ LightSched.pendingTasks s, ∀ nt ∈ t.territories,
      ∀ p ∈ s.territories, p.2.owner = t.task_id ∨ nt.conflicts_with p.2 = false)
    (hown2 : ∀ t ∈ LightSched.pendingTasks s, ∀ nt ∈ t.territories,
      nt.owner = t.task_id)
    (hpair : ∀ t ∈ LightSched.pendingTasks s, ∀ t2 ∈ LightSched.pendingTasks s,
      t ≠ t2 → ∀ nt ∈ t.territories, ∀ v ∈ t2.territories,
        nt.conflicts_with v = false)
    (hc10 : s.active_cheap.length ≤ 10) (hm3 : s.active_medium.length ≤ 3)
    (he1 : s.active_expensive.length ≤ 1) :
    ((s.schedule_next_batch).1 =
      ((LightSched.pendingTasks s).filter (fun t =>
          (LightSched.AVATAR_CONFIG t.avatar).cost = LightSched.CostTier.cheap)).take
        (10 - s.active_cheap.length) ++
      ((LightSched.pendingTasks s).filter (fun t =>
          (LightSched.AVATAR_CONFIG t.avatar).cost = LightSched.CostTier.medium)).take
        (3 - s.active_medium.length) ++
      ((LightSched.pendingTasks s).filter (fun t =>
          (LightSched.AVATAR_CONFIG t.avatar).cost = LightSched.CostTier.expensive)).take
        (1 - s.active_expensive.length)) ∧
    (LightSched.exState.schedule_next_batch).1 = [LightSched.exTask1] ∧
    ((((LightSched.exState.start_task "m1" "t0").2.complete_task "m1" none true
        "t1").schedule_next_batch).1 = [LightSched.exTask2]) := by
  refine ⟨?_, by decide, by decide⟩
  obtain ⟨r1, rc, rm, rx⟩ := LightSched.getReadyTasksAux_all s hdeps hact horig
    hown2 hpair s.tasks s (fun p hp => hp) rfl rfl rfl rfl
    (fun p hp => Or.inl ⟨p, hp, rfl⟩)
  have h2 : (LightSched.getReadyTasksAux s.tasks s).1 = LightSched.pendingTasks s := r1
  unfold LightSched.WukongScheduler.schedule_next_batch
    LightSched.WukongScheduler.get_ready_tasks
  dsimp only
  by_cases hre : (LightSched.getReadyTasksAux s.tasks s).1.isEmpty
  · rw [if_pos hre]
    have hpe : LightSched.pendingTasks s = [] := by
      rw [← h2]
      exact List.isEmpty_iff.mp hre
    rw [hpe]
    simp
  · rw [if_neg hre]
    dsimp only
    have hac : (LightSched.getReadyTasksAux s.tasks s).2.active_by_tier
        LightSched.CostTier.cheap = s.active_cheap := rc
    have ham : (LightSched.getReadyTasksAux s.tasks s).2.active_by_tier
        LightSched.CostTier.medium = s.active_medium := rm
    have hax : (LightSched.getReadyTasksAux s.tasks s).2.active_by_tier
        LightSched.CostTier.expensive = s.active_expensive := rx
    rw [h2, hac, ham, hax]
    rw [LightSched.pyTake_eq_take _ _ (by omega),
      LightSched.pyTake_eq_take _ _ (by omega),
      LightSched.pyTake_eq_take _ _ (by omega)]
    have e1 : ((10 : Int) - (s.active_cheap.length : Int)).toNat =
        10 - s.active_cheap.length := by omega
    have e2 : ((3 : Int) - (s.active_medium.length : Int)).toNat =
        3 - s.active_medium.length := by omega
    have e3 : ((1 : Int) - (s.active_expensive.length : Int)).toNat =
        1 - s.active_expensive.length := by omega
    rw [e1, e2, e3]

/-- Witness for C6: the two-expensive-task scenario instantiates the theorem;
every hypothesis is discharged by computation. -/
theorem schedule_next_batch_correct_witness :
    (LightSched.exState.schedule_next_batch).1 = [LightSched.exTask1] :=
  (schedule_next_batch_correct LightSched.exState (by decide) (by decide)
    (by decide) (by decide) (by decide) (by decide) (by decide) (by decide)).2.1
namespace DagSched

/-- An edge of the task graph: `efrom`/`eto` embed the JSON fields
`"from"`/`"to"` (both are reserved words in Lean). -/
structure Edge where
  efrom : String
  eto : String
  condition : String
deriving DecidableEq, Repr

/-- A node of the task graph.  Presentation-only fields that no verified
property observes (title, constraints, metadata) are omitted. -/
structure Node where
  id : String
  role : String
  status : String
  outputs : List (String × String)
  error : Option (List (String × String))
deriving DecidableEq, Repr

/-- The `execution` sub-object of a task graph. -/
structure Execution where
  current_phase : Nat
  active_nodes : List String
  completed_nodes : List String
  failed_nodes : List String
deriving DecidableEq, Repr

/-- A task graph document (template or instance). -/
structure Graph where
  id : String
  status : String
  nodes : List Node
  edges : List Edge
  execution : Execution
  created_at : String
  updated_at : String
deriving DecidableEq, Repr

/-- The `NODE_STATUS` enumeration of scheduler.py. -/
def NODE_STATUS : List String := ["pending", "running", "done", "failed", "blocked"]

/-- `Scheduler.instantiate_graph`: fresh id and timestamps, status `created`,
zeroed execution state, every node reset to pending with empty outputs.  The
generated id and timestamp are passed in (they come from `uuid`/`datetime`). -/
def instantiate_graph (template : Graph) (new_id now : String) : Graph :=
  { template with
    id := new_id
    created_at := now
    updated_at := now
    status := "created"
    execution := ⟨0, [], [], []⟩
    nodes := template.nodes.map (fun n => { n with status := "pending", outputs := [] }) }

/-- `Scheduler._get_node_by_id`: first node with the given id. -/
def getNodeById (g : Graph) (node_id : String) : Option Node :=
  g.nodes.find? (fun n => n.id = node_id)

/-- `Scheduler._is_dependency_satisfied`, translated branch by branch. -/
def isDependencySatisfied (g : Graph) (e : Edge) : Bool :=
  match getNodeById g e.efrom with
  | none => false
  | some n =>
    if e.condition = "on_success" then n.status = "done"
    else if e.condition = "on_failure" then n.status = "failed"
    else if e.condition = "always" then n.status = "done" ∨ n.status = "failed"
    else false

/-- `Scheduler.get_ready_nodes`: pending nodes all of whose incoming edges
are satisfied; a pending node with no incoming edges is ready. -/
def get_ready_nodes (g : Graph) : List Node :=
  g.nodes.filter (fun n =>
    if n.status = "pending" then
      let incoming := g.edges.filter (fun e => e.eto = n.id)
      if incoming.isEmpty then true
      else incoming.all (fun e => isDependencySatisfied g e)
    else false)

/-- The condition matrix of the specification: `on_success` is satisfied iff
the source is done, `on_failure` iff the source is failed, `always` iff the
source is done or failed. -/
def condMatrix (srcStatus cond : String) : Prop :=
  (cond = "on_success" ∧ srcStatus = "done") ∨
    (cond = "on_failure" ∧ srcStatus = "failed") ∨
      (cond = "always" ∧ (srcStatus = "done" ∨ srcStatus = "failed"))

/-- `isDependencySatisfied` holds exactly when the edge's source node exists
and the condition matrix is satisfied by its status. -/
theorem isDependencySatisfied_iff (g : Graph) (e : Edge) :
    isDependencySatisfied g e = true ↔
      ∃ m, getNodeById g e.efrom = some m ∧ condMatrix m.status e.condition := by
  unfold isDependencySatisfied condMatrix
  cases hf : getNodeById g e.efrom with
  | none => simp
  | some n =>
    dsimp only
    by_cases h1 : e.condition = "on_success"
    · by_cases hd : n.status = "done" <;> simp [h1, hd]
    · by_cases h2 : e.condition = "on_failure"
      · by_cases hd : n.status = "failed" <;> simp [h1, h2, hd]
      · by_cases h3 : e.condition = "always"
        · by_cases hd : n.status = "done" <;>
            by_cases hd2 : n.status = "failed" <;> simp [h1, h2, h3, hd, hd2]
        · simp [h1, h2, h3]

end DagSched

/-- **C2.** For a graph whose edges reference existing node ids, a node is in
`get_ready_nodes` iff it is pending and every incoming edge's condition is
satisfied by its source node's status (per the on_success/on_failure/always
matrix); in particular a pending node with no incoming edges is always in
the result. -/
theorem get_ready_nodes_correct (g : DagSched.Graph)
    (href : ∀ e ∈ g.edges, (∃ n ∈ g.nodes, n.id = e.efrom) ∧
      (∃ n ∈ g.nodes, n.id = e.eto)) :
    (∀ n ∈ g.nodes,
      (n ∈ DagSched.get_ready_nodes g ↔ n.status = "pending" ∧
        ∀ e ∈ g.edges, e.eto = n.id →
          ∃ m, DagSched.getNodeById g e.efrom = some m ∧
            DagSched.condMatrix m.status e.condition)) ∧
    (∀ n ∈ g.nodes, n.status = "pending" → (∀ e ∈ g.edges, e.eto ≠ n.id) →
      n ∈ DagSched.get_ready_nodes g) := by
  have main : ∀ n ∈ g.nodes,
      (n ∈ DagSched.get_ready_nodes g ↔ n.status = "pending" ∧
        ∀ e ∈ g.edges, e.eto = n.id →
          ∃ m, DagSched.getNodeById g e.efrom = some m ∧
            DagSched.condMatrix m.status e.condition) := by
    intro n hn
    unfold DagSched.get_ready_nodes
    rw [List.mem_filter]
    constructor
    · rintro ⟨-, hpred⟩
      by_cases hp : n.status = "pending"
      · refine ⟨hp, ?_⟩
        intro e he hto
        rw [if_pos hp] at hpred
        dsimp only at hpred
        by_cases hie : (g.edges.filter (fun e => e.eto = n.id)).isEmpty
        · rw [List.isEmpty_iff] at hie
          have : e ∈ g.edges.filter (fun e => e.eto = n.id) :=
            List.mem_filter.mpr ⟨he, by simp [hto]⟩
          rw [hie] at this
          exact absurd this (List.not_mem_nil e)
        · rw [if_neg hie] at hpred
          rw [List.all_eq_true] at hpred
          exact (DagSched.isDependencySatisfied_iff g e).mp
            (hpred e (List.mem_filter.mpr ⟨he, by simp [hto]⟩))
      · rw [if_neg hp] at hpred
        exact absurd hpred (by simp)
    · rintro ⟨hp, hsat⟩
      refine ⟨hn, ?_⟩
      rw [if_pos hp]
      dsimp only
      by_cases hie : (g.edges.filter (fun e => e.eto = n.id)).isEmpty
      · rw [if_pos hie]
      · rw [if_neg hie]
        rw [List.all_eq_true]
        intro e he
        rw [List.mem_filter] at he
        exact (DagSched.isDependencySatisfied_iff g e).mpr
          (hsat e he.1 (by simpa using he.2))
  refine ⟨main, ?_⟩
  intro n hn hp hroot
  exact (main n hn).mpr ⟨hp, fun e he hto => absurd hto (hroot e he)⟩

namespace DagSched

/-- A done source node for the C2 witness graph. -/
def w2src : Node := ⟨"a", "eye", "done", [], none⟩

/-- A pending sink node for the C2 witness graph. -/
def w2snk : Node := ⟨"b", "body", "pending", [], none⟩

/-- The C2 witness graph: `a` (done) → `b` (pending) on success. -/
def w2graph : Graph :=
  ⟨"g", "running", [w2src, w2snk], [⟨"a", "b", "on_success"⟩], ⟨0, [], [], []⟩, "", ""⟩

end DagSched

/-- Witness for C2: in the concrete two-node graph, the pending node whose
only incoming edge is satisfied is ready. -/
theorem get_ready_nodes_correct_witness :
    DagSched.w2snk ∈ DagSched.get_ready_nodes DagSched.w2graph :=
  ((get_ready_nodes_correct DagSched.w2graph (by decide)).1 DagSched.w2snk
    (by decide)).mpr (by
      refine ⟨rfl, ?_⟩
      intro e he hto
      rw [show DagSched.w2graph.edges = [⟨"a", "b", "on_success"⟩] from rfl,
        List.mem_singleton] at he
      subst he
      exact ⟨DagSched.w2src, rfl, Or.inl ⟨rfl, rfl⟩⟩)

namespace DagSched

/-- The node-level effect of `mark_node_status`: set the status, then set
outputs only for a truthy outputs argument on a `done` mark, and error only
for a truthy error argument on a `failed` mark. -/
def applyMark (status : String) (outputs error2 : Option (List (String × String)))
    (n : Node) : Node :=
  let n1 := { n with status := status }
  let n2 := match outputs with
    | some o => if ¬o.isEmpty ∧ status = "done" then { n1 with outputs := o } else n1
    | none => n1
  match error2 with
  | some err => if ¬err.isEmpty ∧ status = "failed" then { n2 with error := some err } else n2
  | none => n2

/-- Replace the first node carrying the given id (Python mutates the node
object found by `_get_node_by_id`). -/
def updateNode (nodes : List Node) (node_id : String) (f : Node → Node) : List Node :=
  match nodes with
  | [] => []
  | n :: rest => if n.id = node_id then f n :: rest else n :: updateNode rest node_id f

/-- `Scheduler.mark_node_status`, validation first, then node update and
execution-set maintenance exactly as in the source. -/
def mark_node_status (g : Graph) (node_id status : String)
    (outputs error2 : Option (List (String × String))) (now : String) :
    Except String Graph :=
  if status ∉ NODE_STATUS then
    Except.error ("Invalid status: " ++ status)
  else
    match getNodeById g node_id with
    | none => Except.error ("Node not found: " ++ node_id)
    | some _ =>
      let nodes2 := updateNode g.nodes node_id (applyMark status outputs error2)
      let active := g.execution.active_nodes
      let active2 := if status = "running" then
          (if node_id ∈ active then active else active ++ [node_id])
        else active.erase node_id
      let completed := g.execution.completed_nodes
      let completed2 := if status = "done" ∧ node_id ∉ completed then
          completed ++ [node_id] else completed
      let failed := g.execution.failed_nodes
      let failed2 := if status = "failed" ∧ node_id ∉ failed then
          failed ++ [node_id] else failed
      Except.ok { g with
        nodes := nodes2
        execution := ⟨g.execution.current_phase, active2, completed2, failed2⟩
        updated_at := now }

/-- One call to `mark_node_status`, as data. -/
structure MarkCall where
  node_id : String
  status : String
  outputs : Option (List (String × String))
  error : Option (List (String × String))
  now : String
deriving DecidableEq, Repr

/-- Run a sequence of `mark_node_status` calls, stopping at the first
failure. -/
def runMarks (g : Graph) : List MarkCall → Except String Graph
  | [] => Except.ok g
  | c :: rest =>
    match mark_node_status g c.node_id c.status c.outputs c.error c.now with
    | Except.ok g2 => runMarks g2 rest
    | Except.error e => Except.error e

/-- A call sequence respects the terminal statuses when no later call gives a
node a different status after a call marked it done or failed. -/
def terminalRespecting (calls : List MarkCall) : Prop :=
  List.Pairwise (fun c c2 => (c.status = "done" ∨ c.status = "failed") →
    c2.node_id = c.node_id → c2.status = c.status) calls

/-- The execution sets mirror the node statuses: membership in
active/completed/failed coincides with status running/done/failed. -/
def mirrors (g : Graph) : Prop :=
  ∀ n ∈ g.nodes,
    (n.id ∈ g.execution.active_nodes ↔ n.status = "running") ∧
      (n.id ∈ g.execution.completed_nodes ↔ n.status = "done") ∧
        (n.id ∈ g.execution.failed_nodes ↔ n.status = "failed")

/-- Marking a node never changes its id. -/
theorem applyMark_id (st : String) (o e2 : Option (List (String × String)))
    (n : Node) : (applyMark st o e2 n).id = n.id := by
  unfold applyMark
  cases o with
  | none =>
    cases e2 with
    | none => rfl
    | some err => dsimp only; split <;> rfl
  | some o2 =>
    cases e2 with
    | none => dsimp only; split <;> rfl
    | some err => dsimp only; split <;> split <;> rfl

/-- Marking a node sets exactly the requested status. -/
theorem applyMark_status (st : String) (o e2 : Option (List (String × String)))
    (n : Node) : (applyMark st o e2 n).status = st := by
  unfold applyMark
  cases o with
  | none =>
    cases e2 with
    | none => rfl
    | some err => dsimp only; split <;> rfl
  | some o2 =>
    cases e2 with
    | none => dsimp only; split <;> rfl
    | some err => dsimp only; split <;> split <;> rfl

/-- `updateNode` keeps the id list intact when the update preserves ids. -/
theorem updateNode_map_id (nodes : List Node) (nid : String) (f : Node → Node)
    (hf : ∀ n, (f n).id = n.id) :
    (updateNode nodes nid f).map Node.id = nodes.map Node.id := by
  induction nodes with
  | nil => rfl
  | cons n rest ih =>
    unfold updateNode
    by_cases hn : n.id = nid
    · rw [if_pos hn]
      simp [hf n]
    · rw [if_neg hn]
      simp [ih]

/-- With unique node ids, a node of the updated list is either an untouched
node of a different id or the updated first match. -/
theorem updateNode_mem_cases (nodes : List Node) (nid : String) (f : Node → Node)
    (hnd : (nodes.map Node.id).Nodup) (m : Node) (hm : m ∈ updateNode nodes nid f) :
    (m ∈ nodes ∧ m.id ≠ nid) ∨ ∃ n0 ∈ nodes, n0.id = nid ∧ m = f n0 := by
  induction nodes with
  | nil => exact absurd hm (List.not_mem_nil m)
  | cons n rest ih =>
    rw [List.map_cons, List.nodup_cons] at hnd
    unfold updateNode at hm
    by_cases hn : n.id = nid
    · rw [if_pos hn] at hm
      rcases List.mem_cons.mp hm with rfl | hmem
      · exact Or.inr ⟨n, List.mem_cons_self n rest, hn, rfl⟩
      · refine Or.inl ⟨List.mem_cons_of_mem n hmem, ?_⟩
        intro hid
        exact hnd.1 (hn ▸ hid ▸ List.mem_map_of_mem Node.id hmem)
    · rw [if_neg hn] at hm
      rcases List.mem_cons.mp hm with rfl | hmem
      · exact Or.inl ⟨List.mem_cons_self m rest, hn⟩
      · rcases ih hnd.2 hmem with ⟨h1, h2⟩ | ⟨n0, h1, h2, h3⟩
        · exact Or.inl ⟨List.mem_cons_of_mem n h1, h2⟩
        · exact Or.inr ⟨n0, List.mem_cons_of_mem n h1, h2, h3⟩

/-- Unfolding `getNodeById`: the found node is a member with the right id. -/
theorem getNodeById_mem (g : Graph) (nid : String) (n0 : Node)
    (h : getNodeById g nid = some n0) : n0 ∈ g.nodes ∧ n0.id = nid := by
  unfold getNodeById at h
  refine ⟨List.mem_of_find?_eq_some h, ?_⟩
  have := List.find?_some h
  simpa using this

end DagSched

namespace DagSched

/-- One successful `mark_node_status` call preserves the id list, the mirror
property, the no-duplicates property of the three execution sets, and leaves
every node either untouched (different id) or carrying the marked status —
provided the call does not re-status a node already done or failed. -/
theorem mark_step_inv (g g2 : Graph) (c : MarkCall)
    (hids : (g.nodes.map Node.id).Nodup)
    (hmir : mirrors g)
    (haN : g.execution.active_nodes.Nodup)
    (hcN : g.execution.completed_nodes.Nodup)
    (hfN : g.execution.failed_nodes.Nodup)
    (hguard : ∀ n ∈ g.nodes, (n.status = "done" ∨ n.status = "failed") →
      c.node_id = n.id → c.status = n.status)
    (h : mark_node_status g c.node_id c.status c.outputs c.error c.now = Except.ok g2) :
    g2.nodes.map Node.id = g.nodes.map Node.id ∧
      mirrors g2 ∧
      g2.execution.active_nodes.Nodup ∧
      g2.execution.completed_nodes.Nodup ∧
      g2.execution.failed_nodes.Nodup ∧
      ∀ m ∈ g2.nodes, (m ∈ g.nodes ∧ m.id ≠ c.node_id) ∨
        (m.id = c.node_id ∧ m.status = c.status) := by
  unfold mark_node_status at h
  by_cases hst : c.status ∉ NODE_STATUS
  · rw [if_pos hst] at h
    nomatch h
  · rw [if_neg hst] at h
    cases hfind : getNodeById g c.node_id with
    | none =>
      rw [hfind] at h
      nomatch h
    | some n0 =>
      rw [hfind] at h
      dsimp only at h
      injection h with h2
      subst h2
      dsimp only
      refine ⟨updateNode_map_id _ _ _ (applyMark_id c.status c.outputs c.error),
        ?_, ?_, ?_, ?_, ?_⟩
      · intro m hm
        dsimp only at hm ⊢
        rcases updateNode_mem_cases g.nodes c.node_id _ hids m hm with
          ⟨hmem, hne⟩ | ⟨nn, hnnmem, hnnid, rfl⟩
        · obtain ⟨ma, mc, mf⟩ := hmir m hmem
          refine ⟨?_, ?_, ?_⟩
          · by_cases hr : c.status = "running"
            · rw [if_pos hr]
              by_cases hin : c.node_id ∈ g.execution.active_nodes
              · rw [if_pos hin]; exact ma
              · rw [if_neg hin, List.mem_append]
                simp only [List.mem_singleton]
                constructor
                · rintro (h1 | h1)
                  · exact ma.mp h1
                  · exact absurd h1 hne
                · intro h1; exact Or.inl (ma.mpr h1)
            · rw [if_neg hr, List.mem_erase_of_ne hne]; exact ma
          · by_cases hd : c.status = "done" ∧ c.node_id ∉ g.execution.completed_nodes
            · rw [if_pos hd, List.mem_append]
              simp only [List.mem_singleton]
              constructor
              · rintro (h1 | h1)
                · exact mc.mp h1
                · exact absurd h1 hne
              · intro h1; exact Or.inl (mc.mpr h1)
            · rw [if_neg hd]; exact mc
          · by_cases hf : c.status = "failed" ∧ c.node_id ∉ g.execution.failed_nodes
            · rw [if_pos hf, List.mem_append]
              simp only [List.mem_singleton]
              constructor
              · rintro (h1 | h1)
                · exact mf.mp h1
                · exact absurd h1 hne
              · intro h1; exact Or.inl (mf.mpr h1)
            · rw [if_neg hf]; exact mf
        · obtain ⟨na, nc, nf⟩ := hmir nn hnnmem
          have hmid : (applyMark c.status c.outputs c.error nn).id = c.node_id := by
            rw [applyMark_id]; exact hnnid
          have hmst := applyMark_status c.status c.outputs c.error nn
          refine ⟨?_, ?_, ?_⟩
          · by_cases hr : c.status = "running"
            · rw [if_pos hr]
              apply iff_of_true
              · rw [hmid]
                by_cases hin : c.node_id ∈ g.execution.active_nodes
                · rw [if_pos hin]; exact hin
                · rw [if_neg hin]
                  exact List.mem_append_right _ (List.mem_singleton_self _)
              · rw [hmst]; exact hr
            · rw [if_neg hr]
              apply iff_of_false
              · rw [hmid]
                intro hcontra
                exact ((List.Nodup.mem_erase_iff haN).mp hcontra).1 rfl
              · rw [hmst]; exact hr
          · by_cases hd : c.status = "done"
            · apply iff_of_true
              · rw [hmid]
                by_cases hin : c.node_id ∈ g.execution.completed_nodes
                · rw [if_neg (fun hcon => hcon.2 hin)]; exact hin
                · rw [if_pos ⟨hd, hin⟩]
                  exact List.mem_append_right _ (List.mem_singleton_self _)
              · rw [hmst]; exact hd
            · have hnin : c.node_id ∉ g.execution.completed_nodes := by
                intro hin
                have hdone : nn.status = "done" := nc.mp (by rw [hnnid]; exact hin)
                exact hd ((hguard nn hnnmem (Or.inl hdone) hnnid.symm).trans hdone)
              rw [if_neg (fun hcon => hd hcon.1)]
              apply iff_of_false
              · rw [hmid]; exact hnin
              · rw [hmst]; exact hd
          · by_cases hf : c.status = "failed"
            · apply iff_of_true
              · rw [hmid]
                by_cases hin : c.node_id ∈ g.execution.failed_nodes
                · rw [if_neg (fun hcon => hcon.2 hin)]; exact hin
                · rw [if_pos ⟨hf, hin⟩]
                  exact List.mem_append_right _ (List.mem_singleton_self _)
              · rw [hmst]; exact hf
            · have hnin : c.node_id ∉ g.execution.failed_nodes := by
                intro hin
                have hfld : nn.status = "failed" := nf.mp (by rw [hnnid]; exact hin)
                exact hf ((hguard nn hnnmem (Or.inr hfld) hnnid.symm).trans hfld)
              rw [if_neg (fun hcon => hf hcon.1)]
              apply iff_of_false
              · rw [hmid]; exact hnin
              · rw [hmst]; exact hf
      · dsimp only
        by_cases hr : c.status = "running"
        · rw [if_pos hr]
          by_cases hin : c.node_id ∈ g.execution.active_nodes
          · rw [if_pos hin]; exact haN
          · rw [if_neg hin, List.nodup_append]
            exact ⟨haN, List.nodup_singleton _,
              fun x hx hx2 => hin (by rw [List.mem_singleton.mp hx2] at hx; exact hx)⟩
        · rw [if_neg hr]; exact haN.erase _
      · by_cases hd : c.status = "done" ∧ c.node_id ∉ g.execution.completed_nodes
        · rw [if_pos hd, List.nodup_append]
          exact ⟨hcN, List.nodup_singleton _,
            fun x hx hx2 => hd.2 (by rw [List.mem_singleton.mp hx2] at hx; exact hx)⟩
        · rw [if_neg hd]; exact hcN
      · by_cases hf : c.status = "failed" ∧ c.node_id ∉ g.execution.failed_nodes
        · rw [if_pos hf, List.nodup_append]
          exact ⟨hfN, List.nodup_singleton _,
            fun x hx hx2 => hf.2 (by rw [List.mem_singleton.mp hx2] at hx; exact hx)⟩
        · rw [if_neg hf]; exact hfN
      · intro m hm
        rcases updateNode_mem_cases g.nodes c.node_id _ hids m hm with
          ⟨hmem, hne⟩ | ⟨nn, hnnmem, hnnid, rfl⟩
        · exact Or.inl ⟨hmem, hne⟩
        · exact Or.inr ⟨by rw [applyMark_id]; exact hnnid,
            applyMark_status c.status c.outputs c.error nn⟩

end DagSched

namespace DagSched

/-- Folding a terminal-respecting sequence of successful marks over a graph
satisfying the invariants keeps the mirror property. -/
theorem runMarks_inv (calls : List MarkCall) (g g2 : Graph)
    (hids : (g.nodes.map Node.id).Nodup)
    (hmir : mirrors g)
    (haN : g.execution.active_nodes.Nodup)
    (hcN : g.execution.completed_nodes.Nodup)
    (hfN : g.execution.failed_nodes.Nodup)
    (hguard : ∀ n ∈ g.nodes, (n.status = "done" ∨ n.status = "failed") →
      ∀ c ∈ calls, c.node_id = n.id → c.status = n.status)
    (hterm : terminalRespecting calls)
    (hrun : runMarks g calls = Except.ok g2) :
    mirrors g2 := by
  induction calls generalizing g with
  | nil =>
    unfold runMarks at hrun
    injection hrun with h2
    exact h2 ▸ hmir
  | cons c rest ih =>
    unfold runMarks at hrun
    cases hmk : mark_node_status g c.node_id c.status c.outputs c.error c.now with
    | error e =>
      rw [hmk] at hrun
      nomatch hrun
    | ok gmid =>
      rw [hmk] at hrun
      obtain ⟨hid2, hmir2, ha2, hc2, hf2, hcase⟩ := mark_step_inv g gmid c hids hmir
        haN hcN hfN
        (fun n hn ht heq => hguard n hn ht c (List.mem_cons_self c rest) heq) hmk
      rw [terminalRespecting, List.pairwise_cons] at hterm
      refine ih gmid (hid2 ▸ hids) hmir2 ha2 hc2 hf2 ?_ hterm.2 hrun
      intro n hn ht c2 hc2m heq
      rcases hcase n hn with ⟨hmem, -⟩ | ⟨hid, hsteq⟩
      · exact hguard n hmem ht c2 (List.mem_cons_of_mem c hc2m) heq
      · have hcs : c.status = "done" ∨ c.status = "failed" := hsteq ▸ ht
        have h3 := hterm.1 c2 hc2m hcs (by rw [heq, hid])
        rw [h3, hsteq]

/-- The template with the single node `a` used in the C3 counterexample and
witness. -/
def cexNode : Node := ⟨"a", "body", "pending", [], none⟩

/-- A one-node template graph. -/
def cexTemplate : Graph := ⟨"g", "created", [cexNode], [], ⟨0, [], [], []⟩, "", ""⟩

/-- The instantiated one-node graph. -/
def cexG : Graph := instantiate_graph cexTemplate "g1" "t0"

/-- Terminal-respect of a call list is decidable. -/
instance instDecTerminalRespecting (calls : List MarkCall) :
    Decidable (terminalRespecting calls) := by
  unfold terminalRespecting
  infer_instance

end DagSched

/-- **C3 (counterexample).** Two successful `mark_node_status` calls — mark
node `a` done, then mark it failed — leave `a` in `completed_nodes` while
its status is `failed`, so the mirror "member of completed iff status done"
does not hold after every sequence of successful calls. -/
theorem mark_node_status_mirror_cex :
    ∃ g2, DagSched.runMarks DagSched.cexG
        [⟨"a", "done", none, none, "t1"⟩, ⟨"a", "failed", none, none, "t2"⟩] =
          Except.ok g2 ∧
      "a" ∈ g2.execution.completed_nodes ∧
      ∃ n ∈ g2.nodes, n.id = "a" ∧ n.status = "failed" := by
  exact ⟨⟨"g1", "created", [⟨"a", "body", "failed", [], none⟩], [],
    ⟨0, [], ["a"], ["a"]⟩, "t0", "t2"⟩, rfl, by decide, by decide⟩

/-- **C3 (amended).** For every graph produced by `instantiate_graph` from a
template with unique node ids, and every terminal-respecting sequence of
successful `mark_node_status` calls (no node is given a different status
after being marked done or failed), the execution sets mirror the node
statuses: active ↔ running, completed ↔ done, failed ↔ failed. -/
theorem mark_node_status_mirror (template : DagSched.Graph) (new_id now : String)
    (calls : List DagSched.MarkCall) (g2 : DagSched.Graph)
    (hids : (template.nodes.map DagSched.Node.id).Nodup)
    (hterm : DagSched.terminalRespecting calls)
    (hrun : DagSched.runMarks (DagSched.instantiate_graph template new_id now)
      calls = Except.ok g2) :
    DagSched.mirrors g2 := by
  apply DagSched.runMarks_inv calls (DagSched.instantiate_graph template new_id now)
    g2 ?_ ?_ ?_ ?_ ?_ ?_ hterm hrun
  · have : (DagSched.instantiate_graph template new_id now).nodes.map
        DagSched.Node.id = template.nodes.map DagSched.Node.id := by
      unfold DagSched.instantiate_graph
      dsimp only
      rw [List.map_map]
      rfl
    rw [this]
    exact hids
  · intro n hn
    unfold DagSched.instantiate_graph at hn
    dsimp only at hn
    rw [List.mem_map] at hn
    obtain ⟨n0, -, rfl⟩ := hn
    refine ⟨?_, ?_, ?_⟩ <;> simp [DagSched.instantiate_graph]
  · exact List.nodup_nil
  · exact List.nodup_nil
  · exact List.nodup_nil
  · intro n hn ht
    unfold DagSched.instantiate_graph at hn
    dsimp only at hn
    rw [List.mem_map] at hn
    obtain ⟨n0, -, rfl⟩ := hn
    rcases ht with h1 | h1 <;> exact absurd h1 (by simp)

/-- Witness for C3: running `a` then completing it yields a graph whose sets
mirror the statuses, by the amended theorem at concrete inputs. -/
theorem mark_node_status_mirror_witness :
    DagSched.mirrors ⟨"g1", "created", [⟨"a", "body", "done", [], none⟩], [],
      ⟨0, [], ["a"], []⟩, "t0", "t2"⟩ :=
  mark_node_status_mirror DagSched.cexTemplate "g1" "t0"
    [⟨"a", "running", none, none, "t1"⟩, ⟨"a", "done", none, none, "t2"⟩] _
    (by decide) (by decide) rfl

namespace StateMgr

/-- The persisted runtime state document (`RuntimeState` dataclass). -/
structure RuntimeState where
  current_graph_id : Option String
  current_phase : Int
  active_nodes : List String
  completed_nodes : List String
  failed_nodes : List String
  status : String
  updated_at : Option String
  session_id : Option String
  metadata : List (String × String)
deriving DecidableEq, Repr

/-- The dictionary `prepare_for_resume` returns: either a failure with an
error message, or the recovery information. -/
inductive ResumeResult where
  | failure (error : String)
  | resumed (resumed_nodes : List String) (status : String) (graph_id : Option String)
deriving DecidableEq, Repr

/-- The `success` entry of the returned dictionary. -/
def ResumeResult.success : ResumeResult → Bool
  | .failure _ => false
  | .resumed _ _ _ => true

/-- Python truthiness of `state.get("current_graph_id")`: `None` and the
empty string are falsy. -/
def pyFalsyOptStr : Option String → Bool
  | none => true
  | some s => s = ""

/-- `StateManager.prepare_for_resume`, over the parsed state document.  The
successful branch performs `update_state(status="running", active_nodes=[])`,
which stamps `updated_at`; the stamp value is passed in as `now`. -/
def prepare_for_resume (s : RuntimeState) (now : String) :
    ResumeResult × RuntimeState :=
  if pyFalsyOptStr s.current_graph_id then
    (.failure "No task to resume", s)
  else if s.status = "completed" then
    (.failure "Task is already completed", s)
  else if s.status = "running" ∧ s.active_nodes.isEmpty then
    (.failure "Task is already running with no interrupted nodes", s)
  else
    (.resumed s.active_nodes "running" s.current_graph_id,
      { s with status := "running", active_nodes := [], updated_at := some now })

end StateMgr

/-- **C4.** `prepare_for_resume` fails, leaving the state unchanged, exactly
when the graph id is unset (Python-falsy), the status is completed, or the
status is running with no active nodes; each failure carries its specific
error, and in every other case it returns the previously active ids, sets
status to running, clears `active_nodes` and stamps `updated_at`, leaving
all other fields unchanged. -/
theorem prepare_for_resume_correct (s : StateMgr.RuntimeState) (now : String) :
    (((StateMgr.prepare_for_resume s now).1.success = false ∧
        (StateMgr.prepare_for_resume s now).2 = s) ↔
      (StateMgr.pyFalsyOptStr s.current_graph_id = true ∨ s.status = "completed" ∨
        (s.status = "running" ∧ s.active_nodes = []))) ∧
    (StateMgr.pyFalsyOptStr s.current_graph_id = true →
      StateMgr.prepare_for_resume s now = (.failure "No task to resume", s)) ∧
    (StateMgr.pyFalsyOptStr s.current_graph_id = false → s.status = "completed" →
      StateMgr.prepare_for_resume s now = (.failure "Task is already completed", s)) ∧
    (StateMgr.pyFalsyOptStr s.current_graph_id = false → s.status ≠ "completed" →
      s.status = "running" → s.active_nodes = [] →
      StateMgr.prepare_for_resume s now =
        (.failure "Task is already running with no interrupted nodes", s)) ∧
    (StateMgr.pyFalsyOptStr s.current_graph_id = false → s.status ≠ "completed" →
      ¬(s.status = "running" ∧ s.active_nodes = []) →
      StateMgr.prepare_for_resume s now =
        (.resumed s.active_nodes "running" s.current_graph_id,
          { s with status := "running", active_nodes := [], updated_at := some now })) := by
  unfold StateMgr.prepare_for_resume
  by_cases h1 : StateMgr.pyFalsyOptStr s.current_graph_id = true
  · rw [if_pos h1]
    refine ⟨?_, fun _ => rfl, ?_, ?_, ?_⟩
    · simp [StateMgr.ResumeResult.success, h1]
    · intro h2; rw [h1] at h2; exact absurd h2 (by simp)
    · intro h2; rw [h1] at h2; exact absurd h2 (by simp)
    · intro h2; rw [h1] at h2; exact absurd h2 (by simp)
  · rw [if_neg (by simpa using h1)]
    by_cases h2 : s.status = "completed"
    · rw [if_pos h2]
      refine ⟨?_, ?_, fun _ _ => rfl, ?_, ?_⟩
      · simp [StateMgr.ResumeResult.success, h2]
      · intro h3; exact absurd h3 (by simpa using h1)
      · intro h3 h4; exact absurd h2 h4
      · intro h3 h4; exact absurd h2 h4
    · rw [if_neg h2]
      by_cases h3 : s.status = "running" ∧ s.active_nodes.isEmpty
      · rw [if_pos h3]
        refine ⟨?_, ?_, ?_, fun _ _ _ _ => rfl, ?_⟩
        · simp only [StateMgr.ResumeResult.success]
          constructor
          · intro _
            exact Or.inr (Or.inr ⟨h3.1, List.isEmpty_iff.mp h3.2⟩)
          · intro _
            exact ⟨trivial, trivial⟩
        · intro h4; exact absurd h4 (by simpa using h1)
        · intro h4 h5; exact absurd h5 h2
        · intro h4 h5 h6
          exact absurd ⟨h3.1, List.isEmpty_iff.mp h3.2⟩ h6
      · rw [if_neg h3]
        refine ⟨?_, ?_, ?_, ?_, fun _ _ _ => rfl⟩
        · simp only [StateMgr.ResumeResult.success]
          constructor
          · rintro ⟨hfalse, -⟩
            exact absurd hfalse (by simp)
          · rintro (hq | hq | hq)
            · exact absurd hq (by simpa using h1)
            · exact absurd hq h2
            · exact absurd ⟨hq.1, List.isEmpty_iff.mpr hq.2⟩ h3
        · intro h4; exact absurd h4 (by simpa using h1)
        · intro h4 h5; exact absurd h5 h2
        · intro h4 h5 h6 h7
          exact absurd ⟨h6, List.isEmpty_iff.mpr h7⟩ h3

namespace StateMgr

/-- The scenario state of the specification: status running, two active
nodes, a set graph id. -/
def w4state : RuntimeState :=
  ⟨some "tg_1", 2, ["x", "y"], ["a"], [], "running", some "t0", some "s1", []⟩

end StateMgr

/-- Witness for C4: on status running with active `["x","y"]`, resume returns
those ids, sets status running and clears the active list. -/
theorem prepare_for_resume_correct_witness :
    StateMgr.prepare_for_resume StateMgr.w4state "t9" =
      (.resumed ["x", "y"] "running" (some "tg_1"),
        ⟨some "tg_1", 2, [], ["a"], [], "running", some "t9", some "s1", []⟩) :=
  (prepare_for_resume_correct StateMgr.w4state "t9").2.2.2.2
    (by decide) (by decide) (by decide)

namespace StateMgr

/-- JSON documents, as read from `state.json`. -/
inductive Json where
  | null
  | bool (b : Bool)
  | num (n : Int)
  | str (s : String)
  | arr (items : List Json)
  | obj (fields : List (String × Json))

/-- Field access on a JSON object. -/
def Json.getField (j : Json) (k : String) : Option Json :=
  match j with
  | .obj fields => List.lookup k fields
  | _ => none

/-- `RuntimeState().to_dict()`: the well-defined idle default snapshot. -/
def runtimeStateDefault : Json :=
  .obj [("current_graph_id", .null), ("current_phase", .num 0),
    ("active_nodes", .arr []), ("completed_nodes", .arr []),
    ("failed_nodes", .arr []), ("status", .str "idle"),
    ("updated_at", .null), ("session_id", .null), ("metadata", .obj [])]

/-- `StateManager.get_state`: the state file content is `none` when the file
does not exist; `parseJson` abstracts `json.load` (returning `none` exactly
when the standard library would raise `JSONDecodeError`/`IOError`); a missing
or unparseable file yields the default snapshot, and the function is total —
it never raises. -/
def get_state (parseJson : String → Option Json) (file : Option String) : Json :=
  match file with
  | none => runtimeStateDefault
  | some content =>
    match parseJson content with
    | some doc => doc
    | none => runtimeStateDefault

end StateMgr

/-- **C5.** `get_state` is total: it returns the parsed document whenever the
file content parses, and the idle default snapshot (status "idle", phase 0,
empty active/completed/failed lists) when the file is absent or its content
does not parse. -/
theorem get_state_correct (parseJson : String → Option StateMgr.Json)
    (file : Option String) :
    (∀ c j, file = some c → parseJson c = some j →
      StateMgr.get_state parseJson file = j) ∧
    ((file = none ∨ ∃ c, file = some c ∧ parseJson c = none) →
      StateMgr.get_state parseJson file = StateMgr.runtimeStateDefault) ∧
    (StateMgr.runtimeStateDefault.getField "status" = some (.str "idle") ∧
      StateMgr.runtimeStateDefault.getField "current_phase" = some (.num 0) ∧
      StateMgr.runtimeStateDefault.getField "active_nodes" = some (.arr []) ∧
      StateMgr.runtimeStateDefault.getField "completed_nodes" = some (.arr []) ∧
      StateMgr.runtimeStateDefault.getField "failed_nodes" = some (.arr [])) := by
  refine ⟨?_, ?_, rfl, rfl, rfl, rfl, rfl⟩
  · intro c j hf hp
    subst hf
    unfold StateMgr.get_state
    dsimp only
    rw [hp]
  · rintro (hf | ⟨c, hf, hp⟩)
    · subst hf; rfl
    · subst hf
      unfold StateMgr.get_state
      dsimp only
      rw [hp]

/-- Witness for C5: a parser that succeeds makes `get_state` return its
document; the implications' hypotheses are discharged at concrete inputs. -/
theorem get_state_correct_witness :
    StateMgr.get_state (fun _ => some (.num 7)) (some "x") = .num 7 :=
  (get_state_correct (fun _ => some (.num 7)) (some "x")).1 "x" (.num 7) rfl rfl

namespace HealthMon

/-- Health classification of a node (`HealthStatus` enum). -/
inductive HealthStatus where
  | healthy
  | stalled
  | timeout
  | unknown
deriving DecidableEq, Repr

/-- Per-tier heartbeat thresholds (`HeartbeatConfig` dataclass). -/
structure HeartbeatConfig where
  heartbeat_interval_sec : Int
  warning_threshold_sec : Int
  timeout_threshold_sec : Int
deriving DecidableEq, Repr

/-- A stored heartbeat (`HeartbeatRecord` dataclass). -/
structure HeartbeatRecord where
  node_id : String
  timestamp : String
  progress : List (String × String)
  status : String
deriving DecidableEq, Repr

/-- The per-node entry of the health report (`NodeHealthReport`). -/
structure NodeHealthReport where
  node_id : String
  status : HealthStatus
  last_heartbeat : Option String
  seconds_since_heartbeat : Option ℚ
  progress : List (String × String)
  cost_tier : String
  warning_threshold_sec : Int
  timeout_threshold_sec : Int
deriving DecidableEq, Repr

/-- The overall report: the three counters and the per-node reports. -/
structure HealthReport where
  healthy_count : Nat
  stalled_count : Nat
  timeout_count : Nat
  nodes : List (String × NodeHealthReport)
deriving DecidableEq, Repr

/-- `set(heartbeats.keys()) | set(active_nodes)`, as a duplicate-free-by-key
list: the heartbeat keys followed by the active ids not among them. -/
def monitoredIds (heartbeats : List (String × HeartbeatRecord))
    (active : List String) : List String :=
  heartbeats.map Prod.fst ++
    active.filter (fun n => ¬ (heartbeats.map Prod.fst).contains n)

/-- The loop body of `check_health` for one node id: unknown when active
without a heartbeat, otherwise classified against the tier thresholds by
elapsed time.  `parseTs` abstracts ISO-8601 parsing, `now` the current time,
`tierOf` the `_get_node_tier` lookup and `configFor` the `_get_config`
lookup. -/
def checkNode (parseTs : String → ℚ) (now : ℚ) (tierOf : String → String)
    (configFor : String → HeartbeatConfig)
    (heartbeats : List (String × HeartbeatRecord)) (node_id : String) :
    NodeHealthReport :=
  let config := configFor node_id
  match List.lookup node_id heartbeats with
  | none =>
    ⟨node_id, .unknown, none, none, [], tierOf node_id,
      config.warning_threshold_sec, config.timeout_threshold_sec⟩
  | some rec2 =>
    let seconds_since := now - parseTs rec2.timestamp
    let status :=
      if seconds_since > (config.timeout_threshold_sec : ℚ) then HealthStatus.timeout
      else if seconds_since > (config.warning_threshold_sec : ℚ) then HealthStatus.stalled
      else HealthStatus.healthy
    ⟨node_id, status, some rec2.timestamp, some seconds_since, rec2.progress,
      tierOf node_id, config.warning_threshold_sec, config.timeout_threshold_sec⟩

/-- `HealthMonitor.check_health`: classify every monitored node and count the
healthy/stalled/timed-out ones (event emission is a log side effect outside
the model). -/
def check_health (parseTs : String → ℚ) (now : ℚ) (tierOf : String → String)
    (configFor : String → HeartbeatConfig)
    (heartbeats : List (String × HeartbeatRecord)) (active : List String) :
    HealthReport :=
  (monitoredIds heartbeats active).foldl
    (fun rep nid =>
      let r := checkNode parseTs now tierOf configFor heartbeats nid
      { healthy_count := rep.healthy_count +
          (if r.status = HealthStatus.healthy then 1 else 0)
        stalled_count := rep.stalled_count +
          (if r.status = HealthStatus.stalled then 1 else 0)
        timeout_count := rep.timeout_count +
          (if r.status = HealthStatus.timeout then 1 else 0)
        nodes := rep.nodes ++ [(nid, r)] })
    ⟨0, 0, 0, []⟩

/-- The nodes of the report are exactly the monitored ids paired with their
classification. -/
theorem check_health_nodes (parseTs : String → ℚ) (now : ℚ)
    (tierOf : String → String) (configFor : String → HeartbeatConfig)
    (heartbeats : List (String × HeartbeatRecord)) (active : List String) :
    (check_health parseTs now tierOf configFor heartbeats active).nodes =
      (monitoredIds heartbeats active).map
        (fun nid => (nid, checkNode parseTs now tierOf configFor heartbeats nid)) := by
  unfold check_health
  generalize monitoredIds heartbeats active = ids
  suffices h : ∀ (rep : HealthReport),
      (ids.foldl (fun rep nid =>
        let r := checkNode parseTs now tierOf configFor heartbeats nid
        { healthy_count := rep.healthy_count +
            (if r.status = HealthStatus.healthy then 1 else 0)
          stalled_count := rep.stalled_count +
            (if r.status = HealthStatus.stalled then 1 else 0)
          timeout_count := rep.timeout_count +
            (if r.status = HealthStatus.timeout then 1 else 0)
          nodes := rep.nodes ++ [(nid, r)] }) rep).nodes =
        rep.nodes ++ ids.map
          (fun nid => (nid, checkNode parseTs now tierOf configFor heartbeats nid)) by
    rw [h ⟨0, 0, 0, []⟩]
    rfl
  induction ids with
  | nil => intro rep; simp
  | cons i rest ih =>
    intro rep
    rw [List.foldl_cons, ih]
    simp

/-- Looking up a key in a keyed map of itself returns its image. -/
theorem lookup_map_pair {β : Type} (ids : List String) (f : String → β)
    (nid : String) (h : nid ∈ ids) :
    List.lookup nid (ids.map (fun i => (i, f i))) = some (f nid) := by
  induction ids with
  | nil => exact absurd h (List.not_mem_nil nid)
  | cons i rest ih =>
    rw [List.map_cons]
    by_cases hi : nid = i
    · subst hi
      simp [List.lookup]
    · have h2 : (nid == i) = false := by
        simp only [beq_eq_false_iff_ne, ne_eq]; exact hi
      rcases List.mem_cons.mp h with rfl | hmem
      · exact absurd rfl hi
      · simp [List.lookup, h2, ih hmem]

end HealthMon

namespace HealthMon

/-- A successful lookup key is among the map's keys. -/
theorem mem_keys_of_lookup_some {β : Type} (l : List (String × β)) (k : String)
    (v : β) (h : List.lookup k l = some v) : k ∈ l.map Prod.fst := by
  induction l with
  | nil => nomatch h
  | cons p rest ih =>
    obtain ⟨a, b⟩ := p
    by_cases hk : k = a
    · subst hk
      exact List.mem_map_of_mem Prod.fst (List.mem_cons_self _ _)
    · have h2 : (k == a) = false := by
        simp only [beq_eq_false_iff_ne, ne_eq]; exact hk
      rw [List.lookup, h2] at h
      rw [List.map_cons]
      exact List.mem_cons_of_mem _ (ih h)

/-- A failed lookup key is not among the map's keys. -/
theorem not_mem_keys_of_lookup_none {β : Type} (l : List (String × β))
    (k : String) (h : List.lookup k l = none) : k ∉ l.map Prod.fst := by
  induction l with
  | nil => exact List.not_mem_nil k
  | cons p rest ih =>
    obtain ⟨a, b⟩ := p
    by_cases hk : k = a
    · subst hk
      rw [List.lookup, beq_self_eq_true] at h
      nomatch h
    · have h2 : (k == a) = false := by
        simp only [beq_eq_false_iff_ne, ne_eq]; exact hk
      rw [List.lookup, h2] at h
      rw [List.map_cons]
      intro hmem
      rcases List.mem_cons.mp hmem with h3 | h3
      · exact hk h3
      · exact ih h h3

end HealthMon

/-- **C9.** In `check_health`, a monitored node with a heartbeat of elapsed
time `e` and tier thresholds `w ≤ t` is classified healthy iff `e ≤ w`,
stalled iff `w < e ≤ t`, and timed out iff `e > t`; an active node that
never sent a heartbeat is classified unknown. -/
theorem check_health_correct (parseTs : String → ℚ) (now : ℚ)
    (tierOf : String → String) (configFor : String → HealthMon.HeartbeatConfig)
    (heartbeats : List (String × HealthMon.HeartbeatRecord))
    (active : List String) (nid : String)
    (hwt : (configFor nid).warning_threshold_sec ≤
      (configFor nid).timeout_threshold_sec) :
    (∀ rec2, List.lookup nid heartbeats = some rec2 →
      ∃ r, List.lookup nid
          (HealthMon.check_health parseTs now tierOf configFor heartbeats
            active).nodes = some r ∧
        (r.status = HealthMon.HealthStatus.healthy ↔
          now - parseTs rec2.timestamp ≤ ((configFor nid).warning_threshold_sec : ℚ)) ∧
        (r.status = HealthMon.HealthStatus.stalled ↔
          (((configFor nid).warning_threshold_sec : ℚ) < now - parseTs rec2.timestamp ∧
            now - parseTs rec2.timestamp ≤ ((configFor nid).timeout_threshold_sec : ℚ))) ∧
        (r.status = HealthMon.HealthStatus.timeout ↔
          ((configFor nid).timeout_threshold_sec : ℚ) < now - parseTs rec2.timestamp)) ∧
    (nid ∈ active → List.lookup nid heartbeats = none →
      ∃ r, List.lookup nid
          (HealthMon.check_health parseTs now tierOf configFor heartbeats
            active).nodes = some r ∧
        r.status = HealthMon.HealthStatus.unknown) := by
  have hwtQ : ((configFor nid).warning_threshold_sec : ℚ) ≤
      ((configFor nid).timeout_threshold_sec : ℚ) := by exact_mod_cast hwt
  constructor
  · intro rec2 hrec
    have hmem : nid ∈ HealthMon.monitoredIds heartbeats active :=
      List.mem_append_left _
        (HealthMon.mem_keys_of_lookup_some heartbeats nid rec2 hrec)
    rw [HealthMon.check_health_nodes,
      HealthMon.lookup_map_pair (HealthMon.monitoredIds heartbeats active) _ nid hmem]
    refine ⟨_, rfl, ?_⟩
    unfold HealthMon.checkNode
    rw [hrec]
    dsimp only
    by_cases h1 : now - parseTs rec2.timestamp >
        ((configFor nid).timeout_threshold_sec : ℚ)
    · rw [if_pos h1]
      exact ⟨iff_of_false (by decide)
          (fun hle => absurd h1 (not_lt.mpr (hle.trans hwtQ))),
        iff_of_false (by decide) (fun hc => absurd h1 (not_lt.mpr hc.2)),
        iff_of_true rfl h1⟩
    · rw [if_neg h1]
      by_cases h2 : now - parseTs rec2.timestamp >
          ((configFor nid).warning_threshold_sec : ℚ)
      · rw [if_pos h2]
        exact ⟨iff_of_false (by decide) (fun hle => absurd h2 (not_lt.mpr hle)),
          iff_of_true rfl ⟨h2, not_lt.mp h1⟩,
          iff_of_false (by decide) h1⟩
      · rw [if_neg h2]
        exact ⟨iff_of_true rfl (not_lt.mp h2),
          iff_of_false (by decide) (fun hc => h2 hc.1),
          iff_of_false (by decide) h1⟩
  · intro hact hnone
    have hknot := HealthMon.not_mem_keys_of_lookup_none heartbeats nid hnone
    have hmem : nid ∈ HealthMon.monitoredIds heartbeats active := by
      unfold HealthMon.monitoredIds
      apply List.mem_append_right
      rw [List.mem_filter]
      refine ⟨hact, ?_⟩
      simpa using hknot
    rw [HealthMon.check_health_nodes,
      HealthMon.lookup_map_pair (HealthMon.monitoredIds heartbeats active) _ nid hmem]
    refine ⟨_, rfl, ?_⟩
    unfold HealthMon.checkNode
    rw [hnone]

/-- Witness for C9: with warning 120s and timeout 300s, a heartbeat 200s ago
is stalled and one 310s ago is timed out, by the theorem at concrete
inputs. -/
theorem check_health_correct_witness :
    (∃ r, List.lookup "n" (HealthMon.check_health (fun _ => (0 : ℚ)) 200
        (fun _ => "medium") (fun _ => ⟨45, 120, 300⟩)
        [("n", ⟨"n", "ts", [], "running"⟩)] []).nodes = some r ∧
      r.status = HealthMon.HealthStatus.stalled) ∧
    (∃ r, List.lookup "n" (HealthMon.check_health (fun _ => (0 : ℚ)) 310
        (fun _ => "medium") (fun _ => ⟨45, 120, 300⟩)
        [("n", ⟨"n", "ts", [], "running"⟩)] []).nodes = some r ∧
      r.status = HealthMon.HealthStatus.timeout) := by
  constructor
  · obtain ⟨r, hl, hh, hs, ht⟩ := (check_health_correct (fun _ => (0 : ℚ)) 200
      (fun _ => "medium") (fun _ => ⟨45, 120, 300⟩)
      [("n", ⟨"n", "ts", [], "running"⟩)] [] "n" (by decide)).1
      ⟨"n", "ts", [], "running"⟩ rfl
    exact ⟨r, hl, hs.mpr (by norm_num)⟩
  · obtain ⟨r, hl, hh, hs, ht⟩ := (check_health_correct (fun _ => (0 : ℚ)) 310
      (fun _ => "medium") (fun _ => ⟨45, 120, 300⟩)
      [("n", ⟨"n", "ts", [], "running"⟩)] [] "n" (by decide)).1
      ⟨"n", "ts", [], "running"⟩ rfl
    exact ⟨r, hl, ht.mpr (by norm_num)⟩

namespace DagSched

/-- The in-degree/adjacency build loop of `topological_sort`: walk the edges,
and for each edge whose endpoints are known node ids, append the target to
the source's adjacency list and bump the target's in-degree. -/
def buildDegAdj (ids : List String) (edges : List Edge) :
    (String → Int) × (String → List String) :=
  edges.foldl
    (fun da e =>
      if e.efrom ∈ ids ∧ e.eto ∈ ids then
        (fun v => if v = e.eto then da.1 v + 1 else da.1 v,
          fun u => if u = e.efrom then da.2 u ++ [e.eto] else da.2 u)
      else da)
    (fun _ => 0, fun _ => [])

/-- State of the Kahn loop: the zero-in-degree queue, the emitted order, and
the current in-degree table. -/
structure KahnState where
  queue : List String
  result : List String
  deg : String → Int

/-- The inner loop of `topological_sort`: decrement each neighbor's
in-degree and enqueue it when it reaches zero. -/
def processNeighbors (nbrs : List String) (dq : (String → Int) × List String) :
    (String → Int) × List String :=
  nbrs.foldl
    (fun dq w =>
      let d2 := fun v => if v = w then dq.1 v - 1 else dq.1 v
      (d2, if d2 w = 0 then dq.2 ++ [w] else dq.2))
    dq

/-- The while loop of `topological_sort`, with explicit fuel (the fuel
`n + m + 1` chosen in `topological_sort` is proven sufficient below). -/
def kahnLoop (adj : String → List String) : Nat → KahnState → KahnState
  | 0, s => s
  | fuel + 1, s =>
    match s.queue with
    | [] => s
    | v :: rest =>
      let dq := processNeighbors (adj v) (s.deg, rest)
      kahnLoop adj fuel ⟨dq.2, s.result ++ [v], dq.1⟩

/-- `Scheduler.topological_sort` via Kahn's algorithm: build degrees and
adjacency, seed the queue with zero-in-degree nodes in node order, run the
loop, and fail when nodes remain unprocessed. -/
def topological_sort (g : Graph) : Except String (List String) :=
  let ids := g.nodes.map Node.id
  let da := buildDegAdj ids g.edges
  let queue0 := ids.filter (fun v => da.1 v = 0)
  let final := kahnLoop da.2 (ids.length + g.edges.length + 1) ⟨queue0, [], da.1⟩
  if final.result.length = ids.length then Except.ok final.result
  else Except.error "Graph contains a cycle"

/-- The edge relation of an edge list. -/
def edgeRel (edges : List Edge) (a b : String) : Prop :=
  ∃ e ∈ edges, e.efrom = a ∧ e.eto = b

/-- An edge set has a cycle when some node reaches itself in one or more
steps. -/
def hasCycle (edges : List Edge) : Prop :=
  ∃ x, Relation.TransGen (edgeRel edges) x x

/-- The successors of `u`: targets of the edges leaving `u`, in edge order. -/
def succs (edges : List Edge) (u : String) : List String :=
  (edges.filter (fun e => e.efrom = u)).map Edge.eto

/-- The in-degree table counts, for each id, the retained edges into it. -/
theorem buildDegAdj_deg (ids : List String) (edges : List Edge) (v : String) :
    (buildDegAdj ids edges).1 v =
      ((edges.filter (fun e => e.efrom ∈ ids ∧ e.eto ∈ ids)).countP
        (fun e => e.eto = v) : Int) := by
  suffices h : ∀ (d0 : String → Int) (a0 : String → List String),
      (edges.foldl
        (fun (da : (String → Int) × (String → List String)) (e : Edge) =>
          if e.efrom ∈ ids ∧ e.eto ∈ ids then
            (fun v => if v = e.eto then da.1 v + 1 else da.1 v,
              fun u => if u = e.efrom then da.2 u ++ [e.eto] else da.2 u)
          else da)
        (d0, a0)).1 v =
        d0 v + ((edges.filter (fun e => e.efrom ∈ ids ∧ e.eto ∈ ids)).countP
          (fun e => e.eto = v) : Int) by
    have h2 := h (fun _ => 0) (fun _ => [])
    rw [buildDegAdj, h2]
    ring
  induction edges with
  | nil => intro d0 a0; simp
  | cons e rest ih =>
    intro d0 a0
    rw [List.foldl_cons, List.filter_cons]
    by_cases hok : e.efrom ∈ ids ∧ e.eto ∈ ids
    · rw [if_pos hok]
      rw [if_pos (by simpa using hok)]
      rw [ih]
      dsimp only
      rw [List.countP_cons]
      by_cases hv : e.eto = v
      · rw [if_pos hv.symm, if_pos (by simp [hv])]
        push_cast
        ring
      · have hv2 : ¬v = e.eto := fun h2 => hv h2.symm
        rw [if_neg hv2, if_neg (by simp [hv])]
        push_cast
        ring
    · rw [if_neg hok, if_neg (by simpa using hok), ih]

/-- The adjacency table holds, for each id, the targets of its retained
outgoing edges in order. -/
theorem buildDegAdj_adj (ids : List String) (edges : List Edge) (u : String) :
    (buildDegAdj ids edges).2 u =
      succs (edges.filter (fun e => e.efrom ∈ ids ∧ e.eto ∈ ids)) u := by
  suffices h : ∀ (d0 : String → Int) (a0 : String → List String),
      (edges.foldl
        (fun (da : (String → Int) × (String → List String)) (e : Edge) =>
          if e.efrom ∈ ids ∧ e.eto ∈ ids then
            (fun v => if v = e.eto then da.1 v + 1 else da.1 v,
              fun u => if u = e.efrom then da.2 u ++ [e.eto] else da.2 u)
          else da)
        (d0, a0)).2 u =
        a0 u ++ succs (edges.filter (fun e => e.efrom ∈ ids ∧ e.eto ∈ ids)) u by
    have h2 := h (fun _ => 0) (fun _ => [])
    rw [buildDegAdj, h2]
    rfl
  induction edges with
  | nil => intro d0 a0; simp [succs]
  | cons e rest ih =>
    intro d0 a0
    rw [List.foldl_cons, List.filter_cons]
    by_cases hok : e.efrom ∈ ids ∧ e.eto ∈ ids
    · rw [if_pos hok]
      rw [if_pos (by simpa using hok)]
      rw [ih]
      dsimp only
      unfold succs
      rw [List.filter_cons]
      by_cases hu : e.efrom = u
      · rw [if_pos hu.symm, if_pos (by simp [hu])]
        simp
      · have hu2 : ¬u = e.efrom := fun h2 => hu h2.symm
        rw [if_neg hu2, if_neg (by simp [hu])]
    · rw [if_neg hok, if_neg (by simpa using hok), ih]

/-- Final degrees after processing a neighbor list: each id loses one per
occurrence. -/
theorem processNeighbors_deg (nbrs : List String) (d : String → Int)
    (q : List String) (x : String) :
    (processNeighbors nbrs (d, q)).1 x = d x - (nbrs.count x : Int) := by
  induction nbrs generalizing d q with
  | nil => simp [processNeighbors]
  | cons w rest ih =>
    have step : processNeighbors (w :: rest) (d, q) =
        processNeighbors rest
          ((fun v => if v = w then d v - 1 else d v),
            if (if (w : String) = w then d w - 1 else d w) = 0 then q ++ [w] else q) := rfl
    rw [step, ih]
    by_cases hx : x = w
    · subst hx
      rw [if_pos rfl, List.count_cons_self]
      push_cast
      ring
    · rw [if_neg hx, List.count_cons_of_ne (by simpa using hx)]

/-- The queue after processing a neighbor list: the old queue followed by a
duplicate-free block of exactly the ids whose degree hit zero (those with
`1 ≤ d y ≤ count`). -/
theorem processNeighbors_queue (nbrs : List String) (d : String → Int)
    (q : List String) :
    ∃ fresh, (processNeighbors nbrs (d, q)).2 = q ++ fresh ∧ fresh.Nodup ∧
      ∀ y, y ∈ fresh ↔ (1 ≤ d y ∧ d y ≤ (nbrs.count y : Int)) := by
  induction nbrs generalizing d q with
  | nil =>
    refine ⟨[], by simp [processNeighbors], List.nodup_nil, ?_⟩
    intro y
    simp only [List.not_mem_nil, false_iff, List.count_nil]
    omega
  | cons w rest ih =>
    have step : processNeighbors (w :: rest) (d, q) =
        processNeighbors rest
          ((fun v => if v = w then d v - 1 else d v),
            if (if (w : String) = w then d w - 1 else d w) = 0 then q ++ [w] else q) := rfl
    rw [step]
    by_cases hw0 : d w - 1 = 0
    · rw [if_pos (by simpa using hw0)]
      obtain ⟨fr, h1, hnd, hiff⟩ := ih (fun v => if v = w then d v - 1 else d v) (q ++ [w])
      refine ⟨w :: fr, by rw [h1]; simp, ?_, ?_⟩
      · rw [List.nodup_cons]
        refine ⟨?_, hnd⟩
        intro hmem
        have := (hiff w).mp hmem
        rw [if_pos rfl] at this
        omega
      · intro y
        rw [List.mem_cons, hiff y]
        by_cases hy : y = w
        · subst hy
          rw [if_pos rfl, List.count_cons_self]
          constructor
          · intro _
            constructor
            · omega
            · have : (0 : Int) ≤ rest.count y := by positivity
              push_cast
              omega
          · intro _
            exact Or.inl rfl
        · rw [if_neg hy, List.count_cons_of_ne (by simpa using hy)]
          constructor
          · rintro (rfl | h2)
            · exact absurd rfl hy
            · exact h2
          · intro h2
            exact Or.inr h2
    · rw [if_neg (by simpa using hw0)]
      obtain ⟨fr, h1, hnd, hiff⟩ := ih (fun v => if v = w then d v - 1 else d v) q
      refine ⟨fr, h1, hnd, ?_⟩
      intro y
      rw [hiff y]
      by_cases hy : y = w
      · subst hy
        rw [if_pos rfl, List.count_cons_self]
        push_cast
        omega
      · rw [if_neg hy, List.count_cons_of_ne (by simpa using hy)]

end DagSched

namespace DagSched

/-- Total positive in-degree over the node ids. -/
def degSum (ids : List String) (d : String → Int) : Nat :=
  (ids.map (fun v => (d v).toNat)).sum

/-- Decrementing one id never increases the total. -/
theorem degSum_dec_le (ids : List String) (d : String → Int) (w : String) :
    degSum ids (fun v => if v = w then d v - 1 else d v) ≤ degSum ids d := by
  apply List.sum_le_sum
  intro i _
  dsimp only
  by_cases hi : i = w
  · rw [if_pos hi]
    omega
  · rw [if_neg hi]

/-- Decrementing an id with positive degree strictly shrinks the total. -/
theorem degSum_dec_lt (ids : List String) (d : String → Int) (w : String)
    (hw : w ∈ ids) (hd : 1 ≤ d w) :
    degSum ids (fun v => if v = w then d v - 1 else d v) + 1 ≤ degSum ids d := by
  induction ids with
  | nil => exact absurd hw (List.not_mem_nil w)
  | cons i rest ih =>
    unfold degSum
    rw [List.map_cons, List.sum_cons, List.map_cons, List.sum_cons]
    dsimp only
    by_cases hi : i = w
    · have h1 := degSum_dec_le rest d w
      unfold degSum at h1
      dsimp only at h1
      rw [if_pos hi, hi]
      omega
    · rw [if_neg hi]
      rcases List.mem_cons.mp hw with h2 | h2
      · exact absurd h2.symm hi
      · have h3 := ih h2
        unfold degSum at h3
        dsimp only at h3
        omega

/-- The loop measure: total positive in-degree plus queue length. -/
def measureK (ids : List String) (s : KahnState) : Nat :=
  degSum ids s.deg + s.queue.length

/-- Processing a neighbor list cannot increase degree-total plus queue
length. -/
theorem processNeighbors_measure (ids nbrs : List String) (d : String → Int)
    (q : List String) (hn : ∀ w ∈ nbrs, w ∈ ids) :
    degSum ids (processNeighbors nbrs (d, q)).1 +
        ((processNeighbors nbrs (d, q)).2).length ≤
      degSum ids d + q.length := by
  induction nbrs generalizing d q with
  | nil => exact le_refl _
  | cons w rest ih =>
    have hc : (if (w : String) = w then d w - 1 else d w) = d w - 1 := if_pos rfl
    have step : processNeighbors (w :: rest) (d, q) =
        processNeighbors rest
          ((fun v => if v = w then d v - 1 else d v),
            if (if (w : String) = w then d w - 1 else d w) = 0 then q ++ [w] else q) := rfl
    rw [step]
    apply le_trans (ih _ _ (fun w2 h2 => hn w2 (List.mem_cons_of_mem w h2)))
    rw [hc]
    by_cases h0 : d w - 1 = 0
    · rw [if_pos h0, List.length_append, List.length_singleton]
      have h1 := degSum_dec_lt ids d w (hn w (List.mem_cons_self w rest)) (by omega)
      omega
    · rw [if_neg h0]
      have h1 := degSum_dec_le ids d w
      omega

/-- With fuel at least the measure, the Kahn loop drains its queue. -/
theorem kahnLoop_queue_empty (ids : List String) (adj : String → List String)
    (hadj : ∀ v, ∀ w ∈ adj v, w ∈ ids) :
    ∀ fuel s, measureK ids s ≤ fuel → (kahnLoop adj fuel s).queue = [] := by
  intro fuel
  induction fuel with
  | zero =>
    intro s h
    rw [measureK] at h
    have h0 : kahnLoop adj 0 s = s := rfl
    rw [h0]
    exact List.length_eq_zero.mp (by omega)
  | succ fuel ih =>
    intro s h
    cases hq : s.queue with
    | nil =>
      have he : kahnLoop adj (fuel + 1) s = s := by
        rw [kahnLoop, hq]
      rw [he]
      exact hq
    | cons v rest =>
      have he : kahnLoop adj (fuel + 1) s =
          kahnLoop adj fuel ⟨(processNeighbors (adj v) (s.deg, rest)).2,
            s.result ++ [v], (processNeighbors (adj v) (s.deg, rest)).1⟩ := by
        rw [kahnLoop, hq]
      rw [he]
      apply ih
      have hm := processNeighbors_measure ids (adj v) s.deg rest (hadj v)
      rw [measureK] at h
      rw [hq, List.length_cons] at h
      rw [measureK]
      dsimp only
      omega

end DagSched

namespace DagSched

/-- Pointwise-equal Boolean predicates count the same. -/
theorem countP_eqv {α : Type} (l : List α) (p q : α → Bool)
    (h : ∀ a ∈ l, p a = q a) : l.countP p = l.countP q := by
  induction l with
  | nil => rfl
  | cons a rest ih =>
    rw [List.countP_cons, List.countP_cons, h a (List.mem_cons_self a rest),
      ih (fun a2 h2 => h a2 (List.mem_cons_of_mem a h2))]

/-- Splitting a count along a sub-predicate. -/
theorem countP_and_not_add {α : Type} (l : List α) (p q : α → Bool)
    (himp : ∀ a ∈ l, q a = true → p a = true) :
    l.countP (fun a => p a && !q a) + l.countP q = l.countP p := by
  induction l with
  | nil => rfl
  | cons a rest ih =>
    rw [List.countP_cons, List.countP_cons, List.countP_cons]
    have ih2 := ih (fun a2 h2 => himp a2 (List.mem_cons_of_mem a h2))
    cases hqa : q a with
    | true =>
      have hpa := himp a (List.mem_cons_self a rest) hqa
      rw [hpa]
      rw [if_neg (by simp), if_pos rfl]
      omega
    | false =>
      cases hpa : p a with
      | true =>
        rw [if_pos (by simp), if_neg (by simp), if_pos rfl]
        omega
      | false =>
        rw [if_neg (by simp), if_neg (by simp)]
        omega

/-- Occurrences of `x` among the successors of `u` count the `u → x` edges. -/
theorem count_succs (E : List Edge) (u x : String) :
    (succs E u).count x = E.countP (fun e => e.efrom = u ∧ e.eto = x) := by
  unfold succs
  induction E with
  | nil => rfl
  | cons e rest ih =>
    rw [List.filter_cons, List.countP_cons]
    by_cases hu : e.efrom = u
    · rw [if_pos (by simp [hu]), List.map_cons, List.count_cons]
      by_cases hx : e.eto = x
      · rw [if_pos (by simp [hx]), if_pos (by simp [hu, hx]), ih]
      · rw [if_neg (by simp [hx]), if_neg (by simp [hx]), ih]
    · rw [if_neg (by simp [hu]), if_neg (by simp [hu]), ih]
      omega

end DagSched

namespace DagSched

/-- `indexOf` of a member of the left part of an append. -/
theorem idxAppendLeft (l1 l2 : List String) (a : String) (h : a ∈ l1) :
    (l1 ++ l2).indexOf a = l1.indexOf a := by
  induction l1 with
  | nil => exact absurd h (List.not_mem_nil a)
  | cons b rest ih =>
    rw [List.cons_append, List.indexOf_cons, List.indexOf_cons]
    by_cases hb : b == a
    · rw [hb]
      rfl
    · rw [Bool.not_eq_true] at hb
      rw [hb]
      rcases List.mem_cons.mp h with rfl | hmem
      · rw [beq_self_eq_true] at hb
        nomatch hb
      · rw [ih hmem]

/-- `indexOf` of an element past the left part of an append. -/
theorem idxAppendRight (l1 l2 : List String) (a : String) (h : a ∉ l1) :
    (l1 ++ l2).indexOf a = l1.length + l2.indexOf a := by
  induction l1 with
  | nil => simp
  | cons b rest ih =>
    rw [List.cons_append, List.indexOf_cons, List.length_cons]
    have hb : (b == a) = false := by
      simp only [beq_eq_false_iff_ne, ne_eq]
      intro h2
      exact h (h2 ▸ List.mem_cons_self b rest)
    rw [hb]
    rw [ih (fun h2 => h (List.mem_cons_of_mem b h2))]
    simp only [cond_false]
    omega

/-- A member's index is below the length. -/
theorem idxLtLength (l : List String) (a : String) (h : a ∈ l) :
    l.indexOf a < l.length := by
  induction l with
  | nil => exact absurd h (List.not_mem_nil a)
  | cons b rest ih =>
    rw [List.indexOf_cons, List.length_cons]
    by_cases hb : b == a
    · rw [hb]
      simp
    · rw [Bool.not_eq_true] at hb
      rw [hb]
      rcases List.mem_cons.mp h with rfl | hmem
      · rw [beq_self_eq_true] at hb
        nomatch hb
      · have := ih hmem
        simp only [cond_false]
        omega

/-- Remaining in-degree: the edges into `v` whose source has not yet been
emitted. -/
def remDeg (E : List Edge) (res : List String) (v : String) : Int :=
  (E.countP (fun e => e.eto = v ∧ e.efrom ∉ res) : Int)

/-- The invariant of the Kahn loop: the emitted order and queue are disjoint
id lists; the degree table is the remaining in-degree; every id with zero
remaining in-degree is emitted or queued; queued ids have zero degree; the
emitted order respects every retained edge; and queued targets have their
sources already emitted. -/
def kahnInv (ids : List String) (E : List Edge) (s : KahnState) : Prop :=
  (s.result ++ s.queue).Nodup ∧
    (∀ v ∈ s.result, v ∈ ids) ∧
    (∀ v ∈ s.queue, v ∈ ids) ∧
    (∀ v ∈ ids, s.deg v = remDeg E s.result v) ∧
    (∀ v ∈ ids, s.deg v = 0 → v ∈ s.result ∨ v ∈ s.queue) ∧
    (∀ v ∈ s.queue, s.deg v = 0) ∧
    (∀ e ∈ E, e.eto ∈ s.result → e.efrom ∈ s.result ∧
      s.result.indexOf e.efrom < s.result.indexOf e.eto) ∧
    (∀ e ∈ E, e.eto ∈ s.queue → e.efrom ∈ s.result)

/-- The invariant holds at the initial state of `topological_sort`'s loop. -/
theorem kahnInv_init (ids : List String) (E : List Edge)
    (hnd : ids.Nodup)
    (href : ∀ e ∈ E, e.efrom ∈ ids ∧ e.eto ∈ ids) :
    kahnInv ids E ⟨ids.filter (fun v => (buildDegAdj ids E).1 v = 0), [],
      (buildDegAdj ids E).1⟩ := by
  have hfe : E.filter (fun e => e.efrom ∈ ids ∧ e.eto ∈ ids) = E :=
    List.filter_eq_self.mpr (fun e he => by simp [href e he])
  have hdeg0 : ∀ v, (buildDegAdj ids E).1 v =
      (E.countP (fun e => e.eto = v) : Int) := by
    intro v
    rw [buildDegAdj_deg, hfe]
  refine ⟨?_, ?_, ?_, ?_, ?_, ?_, ?_, ?_⟩
  · simp only [List.nil_append]
    exact hnd.filter _
  · intro v hv
    exact absurd hv (List.not_mem_nil v)
  · intro v hv
    exact (List.mem_filter.mp hv).1
  · intro v hv
    show (buildDegAdj ids E).1 v = remDeg E [] v
    rw [hdeg0 v, remDeg]
    congr 1
    apply countP_eqv
    intro e he
    simp
  · intro v hv h0
    have h0' : (buildDegAdj ids E).1 v = 0 := h0
    refine Or.inr (List.mem_filter.mpr ⟨hv, ?_⟩)
    simp [h0']
  · intro v hv
    have := (List.mem_filter.mp hv).2
    simpa using this
  · intro e he hto
    exact absurd hto (List.not_mem_nil _)
  · intro e he hto
    have h0 : (buildDegAdj ids E).1 e.eto = 0 := by
      have := (List.mem_filter.mp hto).2
      simpa using this
    rw [hdeg0] at h0
    have h1 : E.countP (fun e2 => e2.eto = e.eto) = 0 := by exact_mod_cast h0
    rw [List.countP_eq_zero] at h1
    have h2 := h1 e he
    simp at h2

end DagSched

namespace DagSched

/-- The `v → y` edges are at most the remaining in-degree of `y` while `v`
is unemitted. -/
theorem remDeg_cnt_le (E : List Edge) (res : List String) (v : String)
    (hv : v ∉ res) (y : String) :
    (E.countP (fun e => e.efrom = v ∧ e.eto = y) : Int) ≤ remDeg E res y := by
  have h := countP_and_not_add E (fun e => decide (e.eto = y ∧ e.efrom ∉ res))
    (fun e => decide (e.efrom = v ∧ e.eto = y))
    (fun e he hq2 => by
      rw [decide_eq_true_iff] at hq2
      rw [decide_eq_true_iff]
      exact ⟨hq2.2, fun hm => hv (hq2.1 ▸ hm)⟩)
  have h2 : E.countP (fun e => decide (e.efrom = v ∧ e.eto = y)) ≤
      E.countP (fun e => decide (e.eto = y ∧ e.efrom ∉ res)) := by omega
  unfold remDeg
  exact_mod_cast h2

/-- Emitting a fresh node removes exactly its outgoing edges from the
remaining in-degree. -/
theorem remDeg_snoc (E : List Edge) (res : List String) (v x : String)
    (hv : v ∉ res) :
    remDeg E (res ++ [v]) x +
        (E.countP (fun e => e.efrom = v ∧ e.eto = x) : Int) =
      remDeg E res x := by
  have h := countP_and_not_add E (fun e => decide (e.eto = x ∧ e.efrom ∉ res))
    (fun e => decide (e.efrom = v ∧ e.eto = x))
    (fun e he hq2 => by
      rw [decide_eq_true_iff] at hq2
      rw [decide_eq_true_iff]
      exact ⟨hq2.2, fun hm => hv (hq2.1 ▸ hm)⟩)
  have h2 : E.countP (fun e => decide (e.eto = x ∧ e.efrom ∉ res ++ [v])) =
      E.countP (fun e => decide (e.eto = x ∧ e.efrom ∉ res) &&
        !decide (e.efrom = v ∧ e.eto = x)) := by
    apply countP_eqv
    intro e he
    by_cases h3 : e.eto = x
    · by_cases h4 : e.efrom = v
      · simp [h3, h4, hv]
      · simp [h3, h4]
    · simp [h3]
  unfold remDeg
  rw [h2]
  exact_mod_cast h

end DagSched

namespace DagSched

/-- One iteration of the Kahn loop preserves the invariant: popping a head
`v` of the queue, decrementing its successors and enqueueing the ones whose
degree hit zero keeps every conjunct. -/
theorem kahnInv_step (ids : List String) (E : List Edge)
    (href : ∀ e ∈ E, e.efrom ∈ ids ∧ e.eto ∈ ids)
    (s : KahnState) (v : String) (rest : List String)
    (hq : s.queue = v :: rest) (hinv : kahnInv ids E s) :
    kahnInv ids E ⟨(processNeighbors (succs E v) (s.deg, rest)).2,
      s.result ++ [v], (processNeighbors (succs E v) (s.deg, rest)).1⟩ := by
  obtain ⟨hnd, hres, hque, hdeg, hzero, hqz, hord, hqsrc⟩ := hinv
  rw [hq] at hnd hque hzero hqz hqsrc
  obtain ⟨hnd1, hnd2, hdisj⟩ := List.nodup_append.mp hnd
  have hvres : v ∉ s.result := fun hm => hdisj hm (List.mem_cons_self v rest)
  have hvid : v ∈ ids := hque v (List.mem_cons_self v rest)
  have hresz : ∀ y ∈ s.result, s.deg y = 0 := by
    intro y hy
    rw [hdeg y (hres y hy)]
    unfold remDeg
    have h1 : E.countP (fun e => decide (e.eto = y ∧ e.efrom ∉ s.result)) = 0 := by
      rw [List.countP_eq_zero]
      intro e he h2
      rw [decide_eq_true_iff] at h2
      exact h2.2 (hord e he (h2.1.symm ▸ hy)).1
    rw [h1]
    rfl
  obtain ⟨fresh, hq2, hndf, hiff⟩ :=
    processNeighbors_queue (succs E v) s.deg rest
  have hfresh_ids : ∀ y ∈ fresh, y ∈ ids := by
    intro y hy
    obtain ⟨h1, h2⟩ := (hiff y).mp hy
    have h3 : 1 ≤ (succs E v).count y := by exact_mod_cast le_trans h1 h2
    have h4 : 0 < E.countP (fun e => e.efrom = v ∧ e.eto = y) := by
      rw [← count_succs]
      omega
    obtain ⟨e, he, h5⟩ := List.countP_pos_iff.mp h4
    rw [decide_eq_true_iff] at h5
    exact h5.2 ▸ (href e he).2
  have hdeg' : ∀ x ∈ ids, (processNeighbors (succs E v) (s.deg, rest)).1 x =
      remDeg E (s.result ++ [v]) x := by
    intro x hx
    rw [processNeighbors_deg, hdeg x hx, ← remDeg_snoc E s.result v x hvres,
      count_succs]
    ring
  have hfreshz : ∀ y ∈ fresh,
      (processNeighbors (succs E v) (s.deg, rest)).1 y = 0 := by
    intro y hy
    obtain ⟨h1, h2⟩ := (hiff y).mp hy
    have h3 := remDeg_cnt_le E s.result v hvres y
    have h4 : s.deg y = remDeg E s.result y := hdeg y (hfresh_ids y hy)
    rw [processNeighbors_deg, count_succs]
    rw [count_succs] at h2
    omega
  have hfresh_new : ∀ y ∈ fresh, y ∉ s.result ++ v :: rest := by
    intro y hy hmem
    obtain ⟨h1, _⟩ := (hiff y).mp hy
    rcases List.mem_append.mp hmem with h2 | h2
    · rw [hresz y h2] at h1
      omega
    · rw [hqz y h2] at h1
      omega
  refine ⟨?_, ?_, ?_, hdeg', ?_, ?_, ?_, ?_⟩
  · dsimp only
    rw [hq2]
    have heq : (s.result ++ [v]) ++ (rest ++ fresh) =
        (s.result ++ v :: rest) ++ fresh := by
      simp [List.append_assoc]
    rw [heq, List.nodup_append]
    exact ⟨hnd, hndf, fun a ha ha2 => hfresh_new a ha2 ha⟩
  · intro x hx
    rcases List.mem_append.mp hx with h2 | h2
    · exact hres x h2
    · rw [List.mem_singleton] at h2
      exact h2 ▸ hvid
  · intro x hx
    dsimp only at hx
    rw [hq2] at hx
    rcases List.mem_append.mp hx with h2 | h2
    · exact hque x (List.mem_cons_of_mem v h2)
    · exact hfresh_ids x h2
  · intro x hx h0
    dsimp only at h0 ⊢
    rw [processNeighbors_deg, hdeg x hx] at h0
    by_cases hc : (succs E v).count x = 0
    · rw [hc] at h0
      have h1 : s.deg x = 0 := by
        rw [hdeg x hx]
        omega
      rcases hzero x hx h1 with h2 | h2
      · exact Or.inl (List.mem_append_left [v] h2)
      · rcases List.mem_cons.mp h2 with h3 | h3
        · exact Or.inl (List.mem_append_right s.result (h3 ▸ List.mem_singleton_self v))
        · exact Or.inr (by rw [hq2]; exact List.mem_append_left fresh h3)
    · have h1 : 1 ≤ s.deg x ∧ s.deg x ≤ ((succs E v).count x : Int) := by
        rw [hdeg x hx]
        constructor <;> omega
      exact Or.inr (by rw [hq2]; exact List.mem_append_right rest ((hiff x).mpr h1))
  · intro x hx
    dsimp only at hx ⊢
    rw [hq2] at hx
    rcases List.mem_append.mp hx with h2 | h2
    · rw [processNeighbors_deg]
      have h3 : s.deg x = 0 := hqz x (List.mem_cons_of_mem v h2)
      have h4 : (succs E v).count x = 0 := by
        rw [count_succs, List.countP_eq_zero]
        intro e he h5
        rw [decide_eq_true_iff] at h5
        have h6 : e.efrom ∈ s.result :=
          hqsrc e he (by rw [h5.2]; exact List.mem_cons_of_mem v h2)
        rw [h5.1] at h6
        exact hvres h6
      rw [h3, h4]
      simp
    · exact hfreshz x h2
  · intro e he hto
    dsimp only at hto ⊢
    rcases List.mem_append.mp hto with h2 | h2
    · obtain ⟨h3, h4⟩ := hord e he h2
      refine ⟨List.mem_append_left [v] h3, ?_⟩
      rw [idxAppendLeft s.result [v] e.efrom h3, idxAppendLeft s.result [v] e.eto h2]
      exact h4
    · rw [List.mem_singleton] at h2
      have h3 : e.efrom ∈ s.result :=
        hqsrc e he (by rw [h2]; exact List.mem_cons_self v rest)
      refine ⟨List.mem_append_left [v] h3, ?_⟩
      rw [h2, idxAppendLeft s.result [v] e.efrom h3,
        idxAppendRight s.result [v] v hvres]
      have h4 := idxLtLength s.result e.efrom h3
      have h5 : List.indexOf v [v] = 0 := by simp
      omega
  · intro e he hto
    dsimp only at hto ⊢
    rw [hq2] at hto
    rcases List.mem_append.mp hto with h2 | h2
    · exact List.mem_append_left [v] (hqsrc e he (List.mem_cons_of_mem v h2))
    · have h3 : e.eto ∈ ids := hfresh_ids e.eto h2
      have h4 := hfreshz e.eto h2
      rw [hdeg' e.eto h3] at h4
      unfold remDeg at h4
      have h5 : E.countP
          (fun e2 => decide (e2.eto = e.eto ∧ e2.efrom ∉ s.result ++ [v])) = 0 := by
        exact_mod_cast h4
      rw [List.countP_eq_zero] at h5
      have h6 := h5 e he
      rw [decide_eq_true_iff] at h6
      push_neg at h6
      exact h6 rfl

end DagSched

namespace DagSched

/-- The invariant is preserved through any number of loop iterations. -/
theorem kahnLoop_inv (ids : List String) (E : List Edge)
    (href : ∀ e ∈ E, e.efrom ∈ ids ∧ e.eto ∈ ids)
    (adj : String → List String) (hadj : ∀ u, adj u = succs E u) :
    ∀ fuel s, kahnInv ids E s → kahnInv ids E (kahnLoop adj fuel s) := by
  intro fuel
  induction fuel with
  | zero => exact fun s h => h
  | succ fuel ih =>
    intro s h
    cases hq : s.queue with
    | nil =>
      have he : kahnLoop adj (fuel + 1) s = s := by rw [kahnLoop, hq]
      rw [he]
      exact h
    | cons v rest =>
      have he : kahnLoop adj (fuel + 1) s =
          kahnLoop adj fuel ⟨(processNeighbors (adj v) (s.deg, rest)).2,
            s.result ++ [v], (processNeighbors (adj v) (s.deg, rest)).1⟩ := by
        rw [kahnLoop, hq]
      rw [he, hadj v]
      exact ih _ (kahnInv_step ids E href s v rest hq h)

/-- Summing per-node edge counts over duplicate-free ids counts the edges
into the set. -/
theorem sum_countP_eq (ids : List String) (E : List Edge) (hnd : ids.Nodup) :
    (ids.map (fun v => E.countP (fun e => e.eto = v))).sum =
      E.countP (fun e => e.eto ∈ ids) := by
  induction ids with
  | nil => simp
  | cons v rest ih =>
    rw [List.map_cons, List.sum_cons]
    rw [List.nodup_cons] at hnd
    rw [ih hnd.2]
    have h := countP_and_not_add E (fun e => decide (e.eto ∈ v :: rest))
      (fun e => decide (e.eto = v)) (fun e he hq2 => by
        rw [decide_eq_true_iff] at hq2
        rw [decide_eq_true_iff]
        exact hq2 ▸ List.mem_cons_self v rest)
    have h2 : E.countP (fun e => decide (e.eto ∈ v :: rest) && !decide (e.eto = v)) =
        E.countP (fun e => decide (e.eto ∈ rest)) := by
      apply countP_eqv
      intro e he
      by_cases h3 : e.eto = v
      · simp [h3, hnd.1]
      · simp [h3]
    rw [h2] at h
    omega

/-- With all edge endpoints among the (duplicate-free) ids, the initial
degree total is bounded by the number of edges. -/
theorem degSum_init_le (ids : List String) (E : List Edge) (hnd : ids.Nodup)
    (href : ∀ e ∈ E, e.efrom ∈ ids ∧ e.eto ∈ ids) :
    degSum ids (buildDegAdj ids E).1 ≤ E.length := by
  unfold degSum
  have hfe : E.filter (fun e => e.efrom ∈ ids ∧ e.eto ∈ ids) = E :=
    List.filter_eq_self.mpr (fun e he => by simp [href e he])
  have h1 : ∀ v, ((buildDegAdj ids E).1 v).toNat =
      E.countP (fun e => e.eto = v) := by
    intro v
    rw [buildDegAdj_deg, hfe]
    simp
  have h2 : ids.map (fun v => ((buildDegAdj ids E).1 v).toNat) =
      ids.map (fun v => E.countP (fun e => e.eto = v)) :=
    List.map_congr_left (fun v _ => h1 v)
  rw [h2, sum_countP_eq ids E hnd]
  exact List.countP_le_length _

/-- A nonempty set in which every element has a predecessor inside the set
contains a cycle of the relation. -/
theorem cycle_of_pred_closed (S : List String) (R : String → String → Prop)
    (hne : S ≠ []) (hpred : ∀ y ∈ S, ∃ x ∈ S, R x y) :
    ∃ z, Relation.TransGen R z z := by
  obtain ⟨y0, hy0⟩ := List.exists_mem_of_ne_nil S hne
  choose pick hpickS hpickR using hpred
  let f : {y // y ∈ S} → {y // y ∈ S} := fun y => ⟨pick y.1 y.2, hpickS y.1 y.2⟩
  let u : ℕ → {y // y ∈ S} := fun n => f^[n] ⟨y0, hy0⟩
  have hstep : ∀ n, R (u (n + 1)).1 (u n).1 := by
    intro n
    have h1 : u (n + 1) = f (u n) := Function.iterate_succ_apply' f n _
    rw [h1]
    exact hpickR (u n).1 (u n).2
  have hchain : ∀ i j, i < j → Relation.TransGen R (u j).1 (u i).1 := by
    intro i j
    induction j with
    | zero => omega
    | succ j ih =>
      intro hij
      rcases Nat.lt_succ_iff_lt_or_eq.mp hij with h2 | h2
      · exact Relation.TransGen.head (hstep j) (ih h2)
      · subst h2
        exact Relation.TransGen.single (hstep i)
  have hcard : S.toFinset.card < (Finset.range (S.length + 1)).card := by
    rw [Finset.card_range]
    exact Nat.lt_succ_of_le (List.toFinset_card_le S)
  have hmaps : ∀ i ∈ Finset.range (S.length + 1), (u i).1 ∈ S.toFinset := by
    intro i _
    rw [List.mem_toFinset]
    exact (u i).2
  obtain ⟨i, hi, j, hj, hne2, heq⟩ :=
    Finset.exists_ne_map_eq_of_card_lt_of_maps_to hcard hmaps
  rcases Nat.lt_or_ge i j with h2 | h2
  · exact ⟨(u j).1, heq ▸ hchain i j h2⟩
  · have h3 : j < i := by omega
    exact ⟨(u j).1, heq ▸ hchain j i h3⟩

end DagSched

namespace DagSched

/-- After the fuel chosen in `topological_sort`, the loop's queue is empty
and the invariant holds. -/
theorem kahn_final (ids : List String) (E : List Edge) (hnd : ids.Nodup)
    (href : ∀ e ∈ E, e.efrom ∈ ids ∧ e.eto ∈ ids) :
    (kahnLoop (buildDegAdj ids E).2 (ids.length + E.length + 1)
        ⟨ids.filter (fun v => (buildDegAdj ids E).1 v = 0), [],
          (buildDegAdj ids E).1⟩).queue = [] ∧
      kahnInv ids E (kahnLoop (buildDegAdj ids E).2 (ids.length + E.length + 1)
        ⟨ids.filter (fun v => (buildDegAdj ids E).1 v = 0), [],
          (buildDegAdj ids E).1⟩) := by
  have hfe : E.filter (fun e => e.efrom ∈ ids ∧ e.eto ∈ ids) = E :=
    List.filter_eq_self.mpr (fun e he => by simp [href e he])
  have hadj : ∀ u, (buildDegAdj ids E).2 u = succs E u := by
    intro u
    rw [buildDegAdj_adj, hfe]
  constructor
  · apply kahnLoop_queue_empty ids
    · intro v w hw
      rw [hadj v] at hw
      unfold succs at hw
      obtain ⟨e, he, hew⟩ := List.mem_map.mp hw
      exact hew ▸ (href e (List.mem_of_mem_filter he)).2
    · rw [measureK]
      dsimp only
      have h1 := degSum_init_le ids E hnd href
      have h2 := List.length_filter_le
        (fun v => decide ((buildDegAdj ids E).1 v = 0)) ids
      omega
  · exact kahnLoop_inv ids E href _ hadj _ _ (kahnInv_init ids E hnd href)

/-- When the drained loop has emitted every id, the emitted list is a
permutation of the ids and respects every edge. -/
theorem kahn_complete (ids : List String) (E : List Edge) (s : KahnState)
    (href : ∀ e ∈ E, e.efrom ∈ ids ∧ e.eto ∈ ids)
    (hq : s.queue = []) (hinv : kahnInv ids E s)
    (hlen : s.result.length = ids.length) :
    s.result.Perm ids ∧
      ∀ e ∈ E, s.result.indexOf e.efrom < s.result.indexOf e.eto := by
  obtain ⟨hnd0, hres, _, _, _, _, hord, _⟩ := hinv
  rw [hq, List.append_nil] at hnd0
  have hsp := List.subperm_of_subset hnd0 (fun a ha => hres a ha)
  have hperm := hsp.perm_of_length_le (le_of_eq hlen.symm)
  refine ⟨hperm, ?_⟩
  intro e he
  have hto : e.eto ∈ s.result := hperm.mem_iff.mpr (href e he).2
  exact (hord e he hto).2

/-- An order respecting every edge rules out a cycle. -/
theorem kahn_no_cycle (E : List Edge) (res : List String)
    (hord : ∀ e ∈ E, res.indexOf e.efrom < res.indexOf e.eto) :
    ¬ hasCycle E := by
  rintro ⟨z, hz⟩
  have hlt : ∀ a b, Relation.TransGen (edgeRel E) a b →
      res.indexOf a < res.indexOf b := by
    intro a b h
    induction h with
    | single h1 =>
      obtain ⟨e, he, h2, h3⟩ := h1
      exact h2 ▸ h3 ▸ hord e he
    | tail h1 h2 ih =>
      obtain ⟨e, he, h3, h4⟩ := h2
      exact lt_trans ih (h3 ▸ h4 ▸ hord e he)
  exact lt_irrefl _ (hlt z z hz)

/-- When the drained loop has not emitted every id, the leftover ids are
predecessor-closed, so the edges contain a cycle. -/
theorem kahn_cycle (ids : List String) (E : List Edge) (s : KahnState)
    (hnd : ids.Nodup) (href : ∀ e ∈ E, e.efrom ∈ ids ∧ e.eto ∈ ids)
    (hq : s.queue = []) (hinv : kahnInv ids E s)
    (hlen : s.result.length ≠ ids.length) :
    hasCycle E := by
  obtain ⟨hnd0, hres, _, hdeg, hzero, _, _, _⟩ := hinv
  rw [hq, List.append_nil] at hnd0
  have hSne : ids.filter (fun v => v ∉ s.result) ≠ [] := by
    intro h0
    have hall : ∀ v ∈ ids, v ∈ s.result := by
      intro v hv
      by_contra h1
      have h2 : v ∈ ids.filter (fun v => v ∉ s.result) :=
        List.mem_filter.mpr ⟨hv, by simpa using h1⟩
      rw [h0] at h2
      exact List.not_mem_nil v h2
    have h3 := (List.subperm_of_subset hnd (fun a ha => hall a ha)).length_le
    have h4 := (List.subperm_of_subset hnd0 (fun a ha => hres a ha)).length_le
    omega
  have hpred : ∀ y ∈ ids.filter (fun v => v ∉ s.result),
      ∃ x ∈ ids.filter (fun v => v ∉ s.result), edgeRel E x y := by
    intro y hy
    obtain ⟨hyid, hynres⟩ := List.mem_filter.mp hy
    have hynres2 : y ∉ s.result := by simpa using hynres
    have hdy : s.deg y ≠ 0 := by
      intro h0
      rcases hzero y hyid h0 with h1 | h1
      · exact hynres2 h1
      · rw [hq] at h1
        exact List.not_mem_nil y h1
    have h2 : 0 < E.countP (fun e => e.eto = y ∧ e.efrom ∉ s.result) := by
      by_contra h3
      have h4 : E.countP (fun e => e.eto = y ∧ e.efrom ∉ s.result) = 0 := by
        omega
      apply hdy
      rw [hdeg y hyid]
      unfold remDeg
      rw [h4]
      rfl
    obtain ⟨e, he, h5⟩ := List.countP_pos_iff.mp h2
    rw [decide_eq_true_iff] at h5
    refine ⟨e.efrom, ?_, ⟨e, he, rfl, h5.1⟩⟩
    exact List.mem_filter.mpr ⟨(href e he).1, by simpa using h5.2⟩
  exact cycle_of_pred_closed (ids.filter (fun v => v ∉ s.result)) (edgeRel E)
    hSne hpred

end DagSched

namespace DagSched

/-- A two-node graph with the single edge a → b, for exercising
`topological_sort` at a concrete input. -/
def w1g : Graph :=
  { id := "g-w1", status := "created",
    nodes := [⟨"a", "builder", "pending", [], none⟩,
      ⟨"b", "runner", "pending", [], none⟩],
    edges := [⟨"a", "b", "done"⟩],
    execution := ⟨0, [], [], []⟩,
    created_at := "t0", updated_at := "t0" }

end DagSched

/-- C1: for a graph with duplicate-free node ids and edges between known
nodes, `topological_sort` succeeds with a permutation of the node ids in
which every edge's source precedes its target, and it reports
"Graph contains a cycle" exactly when the edge relation has a cycle. -/
theorem topological_sort_correct (g : DagSched.Graph)
    (hnd : (g.nodes.map DagSched.Node.id).Nodup)
    (href : ∀ e ∈ g.edges, e.efrom ∈ g.nodes.map DagSched.Node.id ∧
      e.eto ∈ g.nodes.map DagSched.Node.id) :
    (∀ r, DagSched.topological_sort g = Except.ok r →
      r.Perm (g.nodes.map DagSched.Node.id) ∧
      ∀ e ∈ g.edges, r.indexOf e.efrom < r.indexOf e.eto) ∧
    (DagSched.topological_sort g = Except.error "Graph contains a cycle" ↔
      DagSched.hasCycle g.edges) := by
  obtain ⟨hqF, hinvF⟩ :=
    DagSched.kahn_final (g.nodes.map DagSched.Node.id) g.edges hnd href
  set final := DagSched.kahnLoop
      (DagSched.buildDegAdj (g.nodes.map DagSched.Node.id) g.edges).2
      ((g.nodes.map DagSched.Node.id).length + g.edges.length + 1)
      ⟨(g.nodes.map DagSched.Node.id).filter
        (fun v => (DagSched.buildDegAdj (g.nodes.map DagSched.Node.id) g.edges).1 v = 0),
        [], (DagSched.buildDegAdj (g.nodes.map DagSched.Node.id) g.edges).1⟩
    with hfinal
  have hts : DagSched.topological_sort g =
      if final.result.length = (g.nodes.map DagSched.Node.id).length then
        Except.ok final.result
      else Except.error "Graph contains a cycle" := rfl
  by_cases hlen : final.result.length = (g.nodes.map DagSched.Node.id).length
  · obtain ⟨hperm, hord⟩ := DagSched.kahn_complete (g.nodes.map DagSched.Node.id)
      g.edges final href hqF hinvF hlen
    rw [hts, if_pos hlen]
    refine ⟨?_, ?_⟩
    · intro r hr
      injection hr with h
      subst h
      exact ⟨hperm, hord⟩
    · constructor
      · intro h
        nomatch h
      · intro hc
        exact absurd hc (DagSched.kahn_no_cycle g.edges final.result hord)
  · rw [hts, if_neg hlen]
    have hcyc := DagSched.kahn_cycle (g.nodes.map DagSched.Node.id) g.edges final
      hnd href hqF hinvF hlen
    refine ⟨?_, ?_⟩
    · intro r hr
      nomatch hr
    · exact ⟨fun _ => hcyc, fun _ => rfl⟩

/-- Witness for C1: the theorem applied to the concrete two-node graph
a → b, with both hypotheses discharged by `decide`. -/
theorem topological_sort_correct_witness :
    (∀ r, DagSched.topological_sort DagSched.w1g = Except.ok r →
      r.Perm (DagSched.w1g.nodes.map DagSched.Node.id) ∧
      ∀ e ∈ DagSched.w1g.edges, r.indexOf e.efrom < r.indexOf e.eto) ∧
    (DagSched.topological_sort DagSched.w1g =
        Except.error "Graph contains a cycle" ↔
      DagSched.hasCycle DagSched.w1g.edges) :=
  topological_sort_correct DagSched.w1g (by decide) (by decide)
